import Mathlib

/-!
Shallow embedding of the core of the `just` command runner (repository sources
under `src/`): the expression evaluator (`assignment_evaluator.rs`), the
`Variables` iterator (`variables.rs`), recipe execution (`recipe.rs`) and the
body post-processing and doc-comment handling of the parser (`parser.rs`).

Modelling conventions:
* Rust `&str`/`String` become Lean `String`; character-level operations
  (`String::pop`, `starts_with('@')`, `[1..]`, `trim`) are modelled on
  `String.data` (the list of characters).
* `BTreeMap`/`BTreeSet` become association lists with `lookupAL`/`insertAL`;
  only lookup/insert/contains are used by the embedded code, and `insertAL`
  replaces an existing binding exactly like `BTreeMap::insert`.
* Machine integers (`usize`) are `Nat`; the one place where the machine width
  matters is `Recipe::max_arguments`, which returns the literal
  `usize::MAX - 1`, embedded as `usizeMax - 1` with `usizeMax = 2 ^ 64 - 1`.
* Side effects (spawning the shell for a backtick or a body line, printing to
  the diagnostic stream, writing the shebang temp script) are recorded in an
  effect log threaded through the evaluator, so that temporal claims
  ("dry-run spawns nothing") are statable.  The marker effect
  `assignmentExpressionEvaluated` records execution of the expression branch
  of `AssignmentEvaluator::evaluate_assignment` (assignment_evaluator.rs:72).
* Subprocess results (exit status / captured stdout) are supplied by oracle
  functions in the context; all theorems hold for every oracle.
* Rust recursion is embedded with an explicit fuel parameter; exhausted fuel
  yields an internal error.  All general theorems quantify over the fuel.
* Environment-variable plumbing (`dotenv`, `exports`,
  `invocation_directory`), colored output, and the interrupt handler are not
  observable in any claim under verification and are not modelled; the
  built-in function table (`function.rs`, not under `src/`) is abstracted as
  a pure oracle in the context, per spec section 4.I.
-/

namespace JustSpec

/-! ## Association-list counterparts of BTreeMap operations -/

/-- Association-list lookup; the counterpart of `BTreeMap::get`. -/
def lookupAL {α : Type} (k : String) : List (String × α) → Option α
  | [] => none
  | (k', v) :: rest => if k' = k then some v else lookupAL k rest

/-- Association-list insert replacing an existing binding; the counterpart of
`BTreeMap::insert`. -/
def insertAL {α : Type} (k : String) (v : α) : List (String × α) → List (String × α)
  | [] => [(k, v)]
  | (k', v') :: rest => if k' = k then (k, v) :: rest else (k', v') :: insertAL k v rest

theorem lookupAL_insertAL_self {α : Type} (k : String) (v : α) :
    ∀ l : List (String × α), lookupAL k (insertAL k v l) = some v := by
  intro l
  induction l with
  | nil => simp [lookupAL, insertAL]
  | cons hd tl ih =>
    obtain ⟨k', v'⟩ := hd
    by_cases h : k' = k
    · simp [lookupAL, insertAL, h]
    · simp [lookupAL, insertAL, h, ih]

theorem lookupAL_insertAL_ne {α : Type} (k m : String) (v : α) (hne : k ≠ m) :
    ∀ l : List (String × α), lookupAL m (insertAL k v l) = lookupAL m l := by
  intro l
  induction l with
  | nil => simp [lookupAL, insertAL, hne]
  | cons hd tl ih =>
    obtain ⟨k', v'⟩ := hd
    by_cases h : k' = k
    · subst h
      simp [lookupAL, insertAL, hne, ih]
    · simp only [insertAL, if_neg h]
      by_cases h2 : k' = m
      · simp [lookupAL, h2]
      · simp [lookupAL, h2, ih]

theorem lookupAL_insertAL_isSome {α : Type} (k m : String) (v : α) (l : List (String × α))
    (h : (lookupAL m l).isSome) : (lookupAL m (insertAL k v l)).isSome := by
  by_cases hkm : k = m
  · subst hkm; simp [lookupAL_insertAL_self]
  · rwa [lookupAL_insertAL_ne k m v hkm]

/-! ## Character-level string helpers (Rust `str`/`String` operations) -/

/-- Rust `String::pop`: remove the last character. -/
def strPop (s : String) : String := String.mk s.data.dropLast

/-- Rust `lexeme[1..]` on a string whose first character is ASCII (`#`):
drop the first character. -/
def strDropFirst (s : String) : String := String.mk s.data.tail

/-- Rust `str::trim`: remove leading and trailing whitespace. -/
def strTrim (s : String) : String :=
  String.mk (((s.data.dropWhile Char.isWhitespace).reverse.dropWhile Char.isWhitespace).reverse)

theorem strData_append (a b : String) : (a ++ b).data = a.data ++ b.data := by
  cases a; cases b; rfl

/-! ## Expressions (`expression.rs`, not under `src/`; the variant set is fixed
by the exhaustive matches in `variables.rs`, `assignment_evaluator.rs` and by
construction in `parser.rs` lines 258–318).  A `Variable`'s token has the
variable's name as its lexeme (parser.rs:277–280), so the embedding stores
just the name; `Variables` below yields those names.  The misspelling
`Concatination` is the source's. -/

inductive Expression where
  | variable (name : String)
  | call (name : String) (arguments : List Expression)
  | string (cooked : String)
  | backtick (raw : String)
  | concatination (lhs : Expression) (rhs : Expression)
  | group (expression : Expression)

/-! ## The Variables iterator (`variables.rs`)

`Variables::next` pops the stack and:
* on `None`, `String`, `Backtick` or `Call` returns `None` — which ends the
  whole iteration, discarding whatever is still on the stack;
* on `Variable` yields its token;
* on `Concatination` pushes `lhs` then `rhs` (so `rhs` is popped first) and
  recurses; on `Group` pushes the inner expression and recurses.

The embedding fuses `next` with the consumption loop (collect until `None`).
The head of the Lean list is the top of the `Vec` stack.  Each step either
stops or strictly decreases the total node count of the stack, so fuel
`variablesFuel root` is sufficient for a complete run. -/

/-- Number of traversal steps an expression can contribute (concatenations and
groups take one step and push their children; all leaves take one step). -/
def exprSteps : Expression → Nat
  | .concatination lhs rhs => 1 + exprSteps lhs + exprSteps rhs
  | .group e => 1 + exprSteps e
  | _ => 1

def variablesRunAux : Nat → List Expression → List String
  | 0, _ => []
  | _ + 1, [] => []
  | _ + 1, .string _ :: _ => []
  | _ + 1, .backtick _ :: _ => []
  | _ + 1, .call _ _ :: _ => []
  | fuel + 1, .variable name :: rest => name :: variablesRunAux fuel rest
  | fuel + 1, .concatination lhs rhs :: rest => variablesRunAux fuel (rhs :: lhs :: rest)
  | fuel + 1, .group e :: rest => variablesRunAux fuel (e :: rest)

/-- Sufficient fuel for a complete run of the iterator started at `root`. -/
def variablesFuel (root : Expression) : Nat := exprSteps root + 1

/-- The full run of the `Variables` iterator over `root` (`Variables::new`
followed by collecting every `next` item until the first `None`).
`variables` is a reserved word in Lean, hence the capitalised name, matching
the iterator struct's name. -/
def Variables (root : Expression) : List String :=
  variablesRunAux (variablesFuel root) [root]

/-! ## Fragments, parameters, recipes (`recipe.rs`, `parser.rs`) -/

/-- A fragment of a recipe body line (`fragment.rs`, not under `src/`; the two
variants are fixed by the matches in `assignment_evaluator.rs:52-58` and the
construction in `parser.rs:217,221`).  A `Text` fragment stores its token's
lexeme. -/
inductive Fragment where
  | text (lexeme : String)
  | expression (expression : Expression)

/-- Modelled from the spec: `fragment.rs` (which defines
`Fragment::continuation`) is not under `src/`.  Spec section 3: "A fragment's
`continuation` property is true iff it is a Text fragment whose lexeme ends
with a backslash immediately before a newline."  The lexer splits body lines
at end-of-line, so the final Text fragment of a line ends immediately before
the newline and the property reduces to a trailing backslash in the lexeme. -/
def Fragment.continuation : Fragment → Bool
  | .text lexeme => lexeme.data.getLast? = some '\\'
  | .expression _ => false

/-- `parameter.rs` is not under `src/`; the fields are fixed by their uses in
`recipe.rs:94-115` and `parser.rs:148-153`. -/
structure Parameter where
  name : String
  default : Option Expression
  variadic : Bool

/-- `Recipe` (recipe.rs:25-37).  `dependency_tokens` carries no extra data in
the embedding and is omitted; `private` is a Lean keyword, hence
`privateFlag`. -/
structure Recipe where
  dependencies : List String
  doc : Option String
  lineNumber : Nat
  lines : List (List Fragment)
  name : String
  parameters : List Parameter
  privateFlag : Bool
  quiet : Bool
  shebang : Bool

/-- `Verbosity` (verbosity.rs). -/
inductive Verbosity where
  | taciturn
  | loquacious
  | grandiloquent
deriving Repr, DecidableEq

/-- `Verbosity::loquacious` (verbosity.rs:19-25); prefixed with `is` because
the constructor already uses the bare name. -/
def Verbosity.isLoquacious : Verbosity → Bool
  | .taciturn => false
  | .loquacious => true
  | .grandiloquent => true

/-- `Verbosity::grandiloquent` (verbosity.rs:27-33). -/
def Verbosity.isGrandiloquent : Verbosity → Bool
  | .taciturn => false
  | .loquacious => false
  | .grandiloquent => true

/-- The fields of `Config` (config.rs:7-21) consumed by `Recipe::run` and the
assignment evaluator.  Color is presentation-only and not modelled; the
printed text below is the unpainted string. -/
structure Config where
  dryRun : Bool
  highlight : Bool
  quiet : Bool
  shell : String
  verbosity : Verbosity

/-! ## Errors and effects -/

/-- `OutputError` (`output_error.rs`, not under `src/`; the variants are fixed
by the exhaustive matches in `runtime_error.rs:184-204,333-372`). -/
inductive OutputError where
  | code (code : Int)
  | signal (signal : Int)
  | unknown
  | ioProblem
  | utf8Problem
deriving Repr, DecidableEq

/-- The variants of `RuntimeError` (runtime_error.rs:4-65) reachable in the
embedded core, carrying the fields the embedding can express.  `panicked`
models a Rust panic (an `Internal`-style impossibility such as indexing a
missing `BTreeMap` key). -/
inductive RuntimeError where
  | argumentCountMismatch (recipe : String) (found : Nat) (min : Nat) (max : Nat)
  | backtick (raw : String) (outputError : OutputError)
  | code (recipe : String) (lineNumber : Option Nat) (code : Int)
  | cygpath (recipe : String)
  | functionCall (name : String) (message : String)
  | internal (message : String)
  | ioError (recipe : String)
  | shebangFailed (recipe : String) (command : String) (argument : Option String)
  | signal (recipe : String) (lineNumber : Option Nat) (signal : Int)
  | tmpdirIoError (recipe : String)
  | unknown (recipe : String) (lineNumber : Option Nat)
  | panicked (message : String)
deriving Repr, DecidableEq

/-- Externally observable actions of the embedded code, recorded in order in
the evaluation state. -/
inductive Effect where
  | backtickRun (raw : String)
  | assignmentExpressionEvaluated (name : String)
  | printErr (line : String)
  | commandSpawned (command : String)
  | scriptSpawned (interpreter : String) (argument : Option String)
  | tmpScriptWritten (fileName : String) (text : String)
deriving Repr, DecidableEq

/-- Effects that spawn a subprocess. -/
def Effect.spawnsProcess : Effect → Bool
  | .backtickRun _ => true
  | .commandSpawned _ => true
  | .scriptSpawned _ _ => true
  | _ => false

/-- Effects that create the shebang temp script on disk. -/
def Effect.writesScript : Effect → Bool
  | .tmpScriptWritten _ _ => true
  | _ => false

/-- Result of waiting on a spawned child process
(`InterruptHandler::guard(|| cmd.status())` and `error_from_signal`,
recipe.rs:5-23,204,285). -/
inductive SpawnOutcome where
  | exited (code : Int)
  | killedBySignal (signal : Option Int)
  | launchFailed
deriving Repr, DecidableEq

/-! ## Evaluator state and context -/

/-- The mutable state of `AssignmentEvaluator` (`evaluated`), together with
the effect log. -/
structure EvalState where
  evaluated : List (String × String)
  log : List Effect
deriving Repr, DecidableEq

/-- The read-only fields of `AssignmentEvaluator`
(assignment_evaluator.rs:3-14) plus the oracles standing for the outside
world.  `functions` abstracts the built-in function table (`function.rs`, not
under `src/`; spec section 4.I fixes it to a pure table).  `backtickOutput`
supplies the result of `output(cmd)` for the shell invocation of a backtick's
raw text (assignment_evaluator.rs:136-162). -/
structure EvalContext where
  assignments : List (String × Expression)
  overrides : List (String × String)
  scope : List (String × String)
  dryRun : Bool
  quiet : Bool
  shell : String
  functions : String → List String → Except RuntimeError String
  backtickOutput : String → Except OutputError String

/-- Oracles for the subprocesses spawned by `Recipe::run`. -/
structure RunEnv where
  functions : String → List String → Except RuntimeError String
  backtickOutput : String → Except OutputError String
  commandStatus : String → SpawnOutcome
  scriptStatus : String → Option String → String → SpawnOutcome

/-- The three mutually recursive evaluator entry points
(assignment_evaluator.rs): `evaluate_assignment` (line 63),
`evaluate_expression` (line 84) and the argument-list evaluation inside the
`Call` arm (lines 111-114). -/
inductive EvalReq where
  | assignment (name : String)
  | expr (args : List (String × String)) (e : Expression)
  | exprList (args : List (String × String)) (es : List Expression)

/-- Shapes of evaluator results: `evaluate_assignment` returns `()`,
`evaluate_expression` a string, the argument-list evaluation a list of
strings. -/
inductive EvalValue where
  | unit
  | str (value : String)
  | strs (values : List String)
deriving Repr, DecidableEq

/-- The mutually recursive core of `AssignmentEvaluator`
(assignment_evaluator.rs:63-134), embedded as one fuel-indexed function.

* `.assignment name` is `evaluate_assignment`: a name already in `evaluated`
  is a no-op; otherwise an unknown name is an internal error; otherwise an
  override supplies the value verbatim; otherwise the expression is evaluated
  (recorded by the `assignmentExpressionEvaluated` marker, line 72) and the
  result cached.
* `.expr args e` is `evaluate_expression`: variables consult `evaluated`,
  then `scope`, then `assignments` (evaluating and caching on demand), then
  `args`; calls evaluate their arguments left to right and dispatch to the
  function table; strings yield their cooked text; backticks yield the
  literal source text in backticks under dry-run and otherwise spawn the
  shell; concatenations append; groups evaluate the inner expression.
* `.exprList args es` evaluates call arguments in order, stopping at the
  first error.

The state (including the effect log) is returned on both success and error,
mirroring the persistence of `&mut self` across `?` propagation. -/
def evalCall (ctx : EvalContext) : Nat → EvalReq → EvalState →
    Except RuntimeError EvalValue × EvalState
  | 0, _, st => (.error (.internal "recursion limit exceeded"), st)
  | fuel + 1, .assignment name, st =>
    match lookupAL name st.evaluated with
    | some _ => (.ok .unit, st)
    | none =>
      match lookupAL name ctx.assignments with
      | none => (.error (.internal ("attempted to evaluated unknown assignment " ++ name)), st)
      | some expression =>
        match lookupAL name ctx.overrides with
        | some value => (.ok .unit, { st with evaluated := insertAL name value st.evaluated })
        | none =>
          match evalCall ctx fuel (.expr [] expression)
              { st with log := st.log ++ [.assignmentExpressionEvaluated name] } with
          | (.ok (.str value), st') =>
            (.ok .unit, { st' with evaluated := insertAL name value st'.evaluated })
          | (.ok _, st') => (.error (.panicked "non-string expression result"), st')
          | (.error e, st') => (.error e, st')
  | fuel + 1, .expr args e, st =>
    match e with
    | .variable name =>
      match lookupAL name st.evaluated with
      | some v => (.ok (.str v), st)
      | none =>
        match lookupAL name ctx.scope with
        | some v => (.ok (.str v), st)
        | none =>
          match lookupAL name ctx.assignments with
          | some _ =>
            match evalCall ctx fuel (.assignment name) st with
            | (.ok _, st') =>
              match lookupAL name st'.evaluated with
              | some v => (.ok (.str v), st')
              | none => (.error (.panicked "no entry found for key"), st')
            | (.error e, st') => (.error e, st')
          | none =>
            match lookupAL name args with
            | some v => (.ok (.str v), st)
            | none =>
              (.error (.internal ("attempted to evaluate undefined variable `" ++ name ++ "`")),
               st)
    | .call name callArguments =>
      match evalCall ctx fuel (.exprList args callArguments) st with
      | (.ok (.strs values), st') =>
        match ctx.functions name values with
        | .ok v => (.ok (.str v), st')
        | .error e => (.error e, st')
      | (.ok _, st') => (.error (.panicked "non-list arguments result"), st')
      | (.error e, st') => (.error e, st')
    | .string cooked => (.ok (.str cooked), st)
    | .backtick raw =>
      if ctx.dryRun then (.ok (.str ("`" ++ raw ++ "`")), st)
      else
        match ctx.backtickOutput raw with
        | .ok output => (.ok (.str output), { st with log := st.log ++ [.backtickRun raw] })
        | .error oe => (.error (.backtick raw oe), { st with log := st.log ++ [.backtickRun raw] })
    | .concatination lhs rhs =>
      match evalCall ctx fuel (.expr args lhs) st with
      | (.ok (.str l), st') =>
        match evalCall ctx fuel (.expr args rhs) st' with
        | (.ok (.str r), st'') => (.ok (.str (l ++ r)), st'')
        | (.ok _, st'') => (.error (.panicked "non-string expression result"), st'')
        | (.error e, st'') => (.error e, st'')
      | (.ok _, st') => (.error (.panicked "non-string expression result"), st')
      | (.error e, st') => (.error e, st')
    | .group expression => evalCall ctx fuel (.expr args expression) st
  | fuel + 1, .exprList args es, st =>
    match es with
    | [] => (.ok (.strs []), st)
    | e :: rest =>
      match evalCall ctx fuel (.expr args e) st with
      | (.ok (.str v), st') =>
        match evalCall ctx fuel (.exprList args rest) st' with
        | (.ok (.strs vs), st'') => (.ok (.strs (v :: vs)), st'')
        | (.ok _, st'') => (.error (.panicked "non-list arguments result"), st'')
        | (.error e, st'') => (.error e, st'')
      | (.ok _, st') => (.error (.panicked "non-string expression result"), st')
      | (.error e, st') => (.error e, st')

/-- `AssignmentEvaluator::evaluate_expression` as a string-returning wrapper
around `evalCall`. -/
def evaluateExpression (ctx : EvalContext) (fuel : Nat) (args : List (String × String))
    (e : Expression) (st : EvalState) : Except RuntimeError String × EvalState :=
  match evalCall ctx fuel (.expr args e) st with
  | (.ok (.str v), st') => (.ok v, st')
  | (.ok _, st') => (.error (.panicked "non-string expression result"), st')
  | (.error err, st') => (.error err, st')

/-- The fragment loop of `AssignmentEvaluator::evaluate_line`
(assignment_evaluator.rs:46-61), with the accumulated string made explicit:
Text fragments append their lexeme, Expression fragments append their
evaluated value. -/
def evaluateLineAux (ctx : EvalContext) (fuel : Nat) (args : List (String × String))
    (acc : String) : List Fragment → EvalState → Except RuntimeError String × EvalState
  | [], st => (.ok acc, st)
  | .text lexeme :: rest, st => evaluateLineAux ctx fuel args (acc ++ lexeme) rest st
  | .expression e :: rest, st =>
    match evaluateExpression ctx fuel args e st with
    | (.ok v, st') => evaluateLineAux ctx fuel args (acc ++ v) rest st'
    | (.error err, st') => (.error err, st')

/-- `AssignmentEvaluator::evaluate_line` (assignment_evaluator.rs:46). -/
def evaluateLine (ctx : EvalContext) (fuel : Nat) (args : List (String × String))
    (line : List Fragment) (st : EvalState) : Except RuntimeError String × EvalState :=
  evaluateLineAux ctx fuel args "" line st

/-- The loop of `AssignmentEvaluator::evaluate_assignments`
(assignment_evaluator.rs:39-41): evaluate every assignment name in order,
stopping at the first error. -/
def evalAssignmentsLoop (ctx : EvalContext) (fuel : Nat) :
    List String → EvalState → Except RuntimeError Unit × EvalState
  | [], st => (.ok (), st)
  | name :: rest, st =>
    match evalCall ctx fuel (.assignment name) st with
    | (.ok _, st') => evalAssignmentsLoop ctx fuel rest st'
    | (.error e, st') => (.error e, st')

/-- `AssignmentEvaluator::evaluate_assignments` (assignment_evaluator.rs:17-44):
build an evaluator with empty `evaluated`/`exports`/`scope`, evaluate every
assignment name (`assignments.keys()`), and return the `evaluated` map.
`invocation_directory` and `dotenv` only feed the function table and are
inside the `functions` oracle here.  `BTreeMap::keys` iterates in sorted key
order; the embedding iterates the association list in order, which is
immaterial to the stated properties (completeness and override values are
order-independent). -/
def topLevelContext (assignments : List (String × Expression))
    (overrides : List (String × String)) (quiet : Bool) (shell : String) (dryRun : Bool)
    (functions : String → List String → Except RuntimeError String)
    (backtickOutput : String → Except OutputError String) : EvalContext :=
  { assignments := assignments, overrides := overrides, scope := [], dryRun := dryRun,
    quiet := quiet, shell := shell, functions := functions,
    backtickOutput := backtickOutput }

def evaluateAssignments (assignments : List (String × Expression))
    (overrides : List (String × String)) (quiet : Bool) (shell : String) (dryRun : Bool)
    (functions : String → List String → Except RuntimeError String)
    (backtickOutput : String → Except OutputError String) (fuel : Nat) :
    Except RuntimeError (List (String × String)) × EvalState :=
  let ctx := topLevelContext assignments overrides quiet shell dryRun functions backtickOutput
  match evalAssignmentsLoop ctx fuel (assignments.map Prod.fst) { evaluated := [], log := [] } with
  | (.ok _, st) => (.ok st.evaluated, st)
  | (.error e, st) => (.error e, st)

/-! ## Recipe execution (`recipe.rs`) -/

/-- The parameter-binding loop of `Recipe::run` (recipe.rs:94-115).  `rest`
is the not-yet-consumed argument slice; an exhausted `rest` evaluates the
parameter's default (internal error if absent); otherwise a variadic
parameter takes all remaining arguments joined by a single space and empties
`rest`; otherwise the parameter takes the next argument. -/
def bindParameters (ctx : EvalContext) (fuel : Nat) :
    List Parameter → List String → List (String × String) → EvalState →
    Except RuntimeError (List (String × String)) × EvalState
  | [], _, argumentMap, st => (.ok argumentMap, st)
  | parameter :: params, rest, argumentMap, st =>
    match rest with
    | [] =>
      match parameter.default with
      | some default =>
        match evaluateExpression ctx fuel [] default st with
        | (.ok value, st') =>
          bindParameters ctx fuel params [] (insertAL parameter.name value argumentMap) st'
        | (.error e, st') => (.error e, st')
      | none => (.error (.internal "missing parameter without default"), st)
    | a :: rest' =>
      if parameter.variadic then
        bindParameters ctx fuel params []
          (insertAL parameter.name (String.intercalate " " (a :: rest')) argumentMap) st
      else
        bindParameters ctx fuel params rest' (insertAL parameter.name a argumentMap) st

/-- `line.last().map(Fragment::continuation).unwrap_or(false)`
(recipe.rs:242). -/
def lineIsContinuation (line : List Fragment) : Bool :=
  (line.getLast?.map Fragment.continuation).getD false

/-- The inner joining loop of line-by-line execution (recipe.rs:235-247):
consume body lines into one logical command, popping the final character of
the accumulated string (the continuation backslash) and continuing whenever
the consumed line's last fragment is a continuation.  Returns the logical
command, the unconsumed lines, and the updated line number. -/
def collectCommand (ctx : EvalContext) (fuel : Nat) (args : List (String × String))
    (acc : String) : List (List Fragment) → Nat → EvalState →
    Except RuntimeError (String × List (List Fragment) × Nat) × EvalState
  | [], n, st => (.ok (acc, [], n), st)
  | line :: rest, n, st =>
    match evaluateLine ctx fuel args line st with
    | (.ok s, st') =>
      if lineIsContinuation line then
        collectCommand ctx fuel args (strPop (acc ++ s)) rest (n + 1) st'
      else (.ok (acc ++ s, rest, n + 1), st')
    | (.error e, st') => (.error e, st')

/-- `command.starts_with('@')` and the strip of that flag (recipe.rs:248-252):
returns the per-command quiet flag and the command without it. -/
def stripQuietFlag (command : String) : Bool × String :=
  match command.data with
  | '@' :: rest => (true, String.mk rest)
  | _ => (false, command)

/-- The outer loop of line-by-line (non-shebang) execution
(recipe.rs:227-307).  Per logical command: strip a leading `@`; skip empty
commands; print the command when `dry_run || loquacious || !((quiet_command
XOR recipe_quiet) || config_quiet)`; skip execution under dry-run; otherwise
spawn `shell -cu <command>` and fail on non-zero exit, signal or launch
error.  The loop fuel only bounds the number of iterations; every theorem
below quantifies over it. -/
def runLines (ctx : EvalContext) (env : RunEnv) (config : Config) (recipeName : String)
    (recipeQuiet : Bool) (args : List (String × String)) :
    Nat → List (List Fragment) → Nat → EvalState → Except RuntimeError Unit × EvalState
  | _, [], _, st => (.ok (), st)
  | 0, _ :: _, _, st => (.error (.internal "recursion limit exceeded"), st)
  | fuel + 1, line :: rest0, n, st =>
    match collectCommand ctx fuel args "" (line :: rest0) n st with
    | (.ok (command0, rest, n'), st') =>
      let flagged := stripQuietFlag command0
      let quietCommand := flagged.fst
      let command := flagged.snd
      if command = "" then runLines ctx env config recipeName recipeQuiet args fuel rest n' st'
      else
        let st' :=
          if config.dryRun || config.verbosity.isLoquacious
              || !((xor quietCommand recipeQuiet) || config.quiet) then
            { st' with log := st'.log ++ [.printErr command] }
          else st'
        if config.dryRun then runLines ctx env config recipeName recipeQuiet args fuel rest n' st'
        else
          let st' := { st' with log := st'.log ++ [.commandSpawned command] }
          match env.commandStatus command with
          | .exited c =>
            if c ≠ 0 then (.error (.code recipeName (some n') c), st')
            else runLines ctx env config recipeName recipeQuiet args fuel rest n' st'
          | .killedBySignal (some s) => (.error (.signal recipeName (some n') s), st')
          | .killedBySignal none => (.error (.unknown recipeName (some n')), st')
          | .launchFailed => (.error (.ioError recipeName), st')
    | (.error e, st') => (.error e, st')

/-! ## The shebang temp script (recipe.rs:117-226) -/

/-- A run of `n` newline characters, appended one at a time as in the loop at
recipe.rs:154-156. -/
def newlines : Nat → String
  | 0 => ""
  | n + 1 => newlines n ++ "\n"

/-- The loop at recipe.rs:157-160: append each remaining evaluated line
followed by a newline. -/
def appendLines : List String → String
  | [] => ""
  | l :: ls => l ++ "\n" ++ appendLines ls

/-- The text written to the shebang temp script (recipe.rs:147-160): the
evaluated first (shebang) line, a newline, then `lineNumber + 1` further
newlines (the loop `for _ in 1..(self.line_number + 2)`), then the remaining
evaluated lines each followed by a newline.  The empty-lines case is
unreachable: `Recipe::run` indexes `evaluated_lines[0]` first. -/
def shebangScriptText (lineNumber : Nat) : List String → String
  | [] => ""
  | first :: rest => first ++ "\n" ++ newlines (lineNumber + 1) ++ appendLines rest

/-- `Shebang` (`shebang.rs`, not under `src/`). -/
structure Shebang where
  interpreter : String
  argument : Option String

/-- Modelled from the spec: `shebang.rs` is not under `src/`.  Spec section
4.K.3c: "parse the shebang into `interpreter` and optional `argument`".  The
line must begin with `#!`; the remainder is trimmed and split at the first
space into the interpreter and an optional argument. -/
def Shebang.new (line : String) : Option Shebang :=
  match line.data with
  | '#' :: '!' :: rest =>
    let trimmed := (strTrim (String.mk rest)).data
    let interpreter := trimmed.takeWhile (fun c => c ≠ ' ')
    let argument := (trimmed.dropWhile (fun c => c ≠ ' ')).dropWhile (fun c => c = ' ')
    if interpreter.isEmpty then none
    else
      some { interpreter := String.mk interpreter,
             argument := if argument.isEmpty then none else some (String.mk argument) }
  | _ => none

/-- The fold at recipe.rs:118-121: evaluate every body line in order. -/
def evaluateLines (ctx : EvalContext) (fuel : Nat) (args : List (String × String)) :
    List (List Fragment) → EvalState → Except RuntimeError (List String) × EvalState
  | [], st => (.ok [], st)
  | line :: rest, st =>
    match evaluateLine ctx fuel args line st with
    | (.ok s, st') =>
      match evaluateLines ctx fuel args rest st' with
      | (.ok ss, st'') => (.ok (s :: ss), st'')
      | (.error e, st'') => (.error e, st'')
    | (.error e, st') => (.error e, st')

/-- The `AssignmentEvaluator` built at the top of `Recipe::run`
(recipe.rs:81-92): empty assignments, empty overrides, the recipe context's
scope, and the configuration's dry-run/quiet/shell. -/
def recipeEvalContext (env : RunEnv) (config : Config) (scope : List (String × String)) :
    EvalContext :=
  { assignments := [], overrides := [], scope := scope, dryRun := config.dryRun,
    quiet := config.quiet, shell := config.shell, functions := env.functions,
    backtickOutput := env.backtickOutput }

/-- The state at the top of `Recipe::run`: the loquacious banner
(recipe.rs:69-77) is the only prior effect. -/
def recipeInitState (config : Config) (recipe : Recipe) : EvalState :=
  { evaluated := [],
    log :=
      if config.verbosity.isLoquacious then
        [.printErr ("===> Running recipe `" ++ recipe.name ++ "`...")]
      else [] }

/-- `Recipe::run` (recipe.rs:60-309).  Binds parameters, then either runs the
shebang path (evaluate all lines; print them when dry-run or recipe-quiet;
return under dry-run; otherwise write the temp script named after the recipe,
print it when grandiloquent, parse the shebang, spawn the interpreter and
translate its exit status) or the line-by-line loop `runLines`.  Temp-dir
creation and the execute-permission bit always succeed in the embedding; their
failure paths (`TmpdirIoError`) carry no claim under verification.  The
`Cygpath` path of `Platform::make_shebang_command` is Windows-only and not
modelled. -/
def recipeRun (env : RunEnv) (config : Config) (scope : List (String × String))
    (recipe : Recipe) (fuel : Nat) (arguments : List String) :
    Except RuntimeError Unit × EvalState :=
  let ctx := recipeEvalContext env config scope
  match bindParameters ctx fuel recipe.parameters arguments [] (recipeInitState config recipe) with
  | (.error e, st) => (.error e, st)
  | (.ok argumentMap, st) =>
    if recipe.shebang then
      match evaluateLines ctx fuel argumentMap recipe.lines st with
      | (.error e, st) => (.error e, st)
      | (.ok evaluatedLines, st) =>
        let st :=
          if config.dryRun || recipe.quiet then
            { st with log := st.log ++ evaluatedLines.map .printErr }
          else st
        if config.dryRun then (.ok (), st)
        else
          match evaluatedLines with
          | [] => (.error (.panicked "index out of bounds: evaluated_lines[0]"), st)
          | first :: rest =>
            let text := shebangScriptText recipe.lineNumber (first :: rest)
            let st :=
              if config.verbosity.isGrandiloquent then
                { st with log := st.log ++ [.printErr text] }
              else st
            let st := { st with log := st.log ++ [.tmpScriptWritten recipe.name text] }
            match Shebang.new first with
            | none => (.error (.internal ("bad shebang line: " ++ first)), st)
            | some sb =>
              let st := { st with log := st.log ++ [.scriptSpawned sb.interpreter sb.argument] }
              match env.scriptStatus sb.interpreter sb.argument recipe.name with
              | .exited c =>
                if c ≠ 0 then (.error (.code recipe.name none c), st)
                else (.ok (), st)
              | .killedBySignal (some s) => (.error (.signal recipe.name none s), st)
              | .killedBySignal none => (.error (.unknown recipe.name none), st)
              | .launchFailed =>
                (.error (.shebangFailed recipe.name sb.interpreter sb.argument), st)
    else
      runLines ctx env config recipe.name recipe.quiet argumentMap fuel recipe.lines
        (recipe.lineNumber + 1) st

/-! ## Argument ranges (recipe.rs:40-58) -/

/-- The largest value of a 64-bit `usize`. -/
def usizeMax : Nat := 2 ^ 64 - 1

/-- `Recipe::min_arguments` (recipe.rs:44-50): the number of parameters
without a default. -/
def Recipe.minArguments (r : Recipe) : Nat :=
  (r.parameters.filter (fun p => p.default.isNone)).length

/-- `Recipe::max_arguments` (recipe.rs:52-58): `usize::MAX - 1` when some
parameter is variadic, otherwise the parameter count. -/
def Recipe.maxArguments (r : Recipe) : Nat :=
  if r.parameters.any (fun p => p.variadic) then usizeMax - 1 else r.parameters.length

/-- `RangeInclusive::contains` on `Recipe::argument_range` (recipe.rs:40-42). -/
def Recipe.argumentRangeContains (r : Recipe) (count : Nat) : Bool :=
  decide (r.minArguments ≤ count) && decide (count ≤ r.maxArguments)

/-- Modelled from the spec: the caller that checks the argument count lives in
`justfile.rs`, which is not under `src/`.  Spec section 4.K.1: "Check
`arguments.len()` against the recipe's argument range `[min, max]` ... On
mismatch → `ArgumentCountMismatch`."  The range itself is
`Recipe::argument_range` from recipe.rs. -/
def checkArgumentCount (r : Recipe) (found : Nat) : Except RuntimeError Unit :=
  if r.argumentRangeContains found then .ok ()
  else .error (.argumentCountMismatch r.name found r.minArguments r.maxArguments)

/-! ## Parser fragments relevant to the claims (`parser.rs`) -/

/-- The trailing-blank-line removal at parser.rs:235-237: `while
lines.last().map(Vec::is_empty).unwrap_or(false) { lines.pop(); }`, i.e. the
maximal all-empty suffix is dropped. -/
def stripTrailingBlankLines (lines : List (List Fragment)) : List (List Fragment) :=
  ((lines.reverse).dropWhile List.isEmpty).reverse

/-- The doc-comment computation at parser.rs:244:
`doc.map(|t| t.lexeme()[1..].trim())` — drop the leading `#` of the comment
token's lexeme, then trim surrounding whitespace. -/
def recipeDocOfComment (lexeme : String) : String := strTrim (strDropFirst lexeme)

/-- Well-formedness of a parameter list as established by `Parser::recipe`
(parser.rs:100-154): no parameter follows a variadic one
(`ParameterFollowsVariadicParameter`) and no default-less parameter follows a
defaulted one (`RequiredParameterFollowsDefaultParameter`). -/
def wellFormedParameters : List Parameter → Bool
  | [] => true
  | p :: ps =>
    (!p.variadic || ps.isEmpty) && (!p.default.isSome || ps.all (fun q => q.default.isSome))
      && wellFormedParameters ps

/-- The number of required (default-less) parameters in a list;
`Recipe.minArguments` is this count of the recipe's parameters. -/
def requiredParameterCount (params : List Parameter) : Nat :=
  (params.filter (fun p => p.default.isNone)).length

/-! ## Lines of a text file -/

/-- Split a character list at newline characters; the sections of a
newline-terminated file, with one trailing empty section. -/
def splitLines : List Char → List (List Char)
  | [] => [[]]
  | c :: rest =>
    if c = '\n' then [] :: splitLines rest
    else
      match splitLines rest with
      | [] => [[c]]
      | g :: gs => (c :: g) :: gs

/-- The 1-based `n`-th line of a text. -/
def lineAt (text : String) (n : Nat) : Option String :=
  ((splitLines text.data).get? (n - 1)).map String.mk

/-! ## The state-evolution invariant

Every embedded operation turns a state `st` into a state `st'` such that:
the log grows by a suffix that contains no subprocess spawn and no script
write under dry-run and never contains the expression-evaluation marker of an
overridden assignment; the set of evaluated names grows; and the property
"every evaluated entry of an overridden name holds the override value" is
preserved. -/

structure StepOK (ctx : EvalContext) (st st' : EvalState) : Prop where
  log_extend : ∃ tail, st'.log = st.log ++ tail
    ∧ (ctx.dryRun = true → ∀ e ∈ tail, e.spawnsProcess = false ∧ e.writesScript = false)
    ∧ (∀ name, (lookupAL name ctx.overrides).isSome →
        Effect.assignmentExpressionEvaluated name ∉ tail)
  evaluated_mono : ∀ m, (lookupAL m st.evaluated).isSome → (lookupAL m st'.evaluated).isSome
  override_inv :
    (∀ m w u, lookupAL m ctx.overrides = some w → lookupAL m st.evaluated = some u → u = w) →
    ∀ m w u, lookupAL m ctx.overrides = some w → lookupAL m st'.evaluated = some u → u = w

theorem StepOK.refl {ctx : EvalContext} {st : EvalState} : StepOK ctx st st where
  log_extend := ⟨[], by simp⟩
  evaluated_mono := fun _ h => h
  override_inv := fun h => h

theorem StepOK.trans {ctx : EvalContext} {st1 st2 st3 : EvalState}
    (h1 : StepOK ctx st1 st2) (h2 : StepOK ctx st2 st3) : StepOK ctx st1 st3 where
  log_extend := by
    obtain ⟨t1, he1, hd1, hm1⟩ := h1.log_extend
    obtain ⟨t2, he2, hd2, hm2⟩ := h2.log_extend
    refine ⟨t1 ++ t2, ?_, ?_, ?_⟩
    · rw [he2, he1, List.append_assoc]
    · intro hdry e he
      rcases List.mem_append.mp he with h | h
      · exact hd1 hdry e h
      · exact hd2 hdry e h
    · intro name hov hmem
      rcases List.mem_append.mp hmem with h | h
      · exact hm1 name hov h
      · exact hm2 name hov h
  evaluated_mono := fun m h => h2.evaluated_mono m (h1.evaluated_mono m h)
  override_inv := fun h => h2.override_inv (h1.override_inv h)

theorem StepOK.append {ctx : EvalContext} {st : EvalState} (es : List Effect)
    (hdry : ctx.dryRun = true → ∀ e ∈ es, e.spawnsProcess = false ∧ e.writesScript = false)
    (hmark : ∀ name, (lookupAL name ctx.overrides).isSome →
      Effect.assignmentExpressionEvaluated name ∉ es) :
    StepOK ctx st { st with log := st.log ++ es } where
  log_extend := ⟨es, by simp, hdry, hmark⟩
  evaluated_mono := fun _ h => h
  override_inv := fun h => h

/-- Appending effects that no claim restricts: anything except a spawn, a
script write and a marker. -/
theorem StepOK.appendBenign {ctx : EvalContext} {st : EvalState} (es : List Effect)
    (hben : ∀ e ∈ es, e.spawnsProcess = false ∧ e.writesScript = false ∧
      ∀ name, e ≠ .assignmentExpressionEvaluated name) :
    StepOK ctx st { st with log := st.log ++ es } :=
  .append es (fun _ e he => ⟨(hben e he).1, (hben e he).2.1⟩)
    (fun name _ hmem => ((hben _ hmem).2.2 name) (Eq.refl _))

theorem StepOK.insertEval {ctx : EvalContext} {st : EvalState} (name : String) (v : String)
    (hov : ∀ w, lookupAL name ctx.overrides = some w → v = w) :
    StepOK ctx st { st with evaluated := insertAL name v st.evaluated } where
  log_extend := ⟨[], by simp⟩
  evaluated_mono := fun m h => lookupAL_insertAL_isSome name m v st.evaluated h
  override_inv := by
    intro h m w u hw hu
    by_cases hm : name = m
    · subst hm
      rw [lookupAL_insertAL_self] at hu
      exact (Option.some.inj hu) ▸ hov w hw
    · rw [lookupAL_insertAL_ne name m v hm] at hu
      exact h m w u hw hu

end JustSpec

namespace JustSpec

/-- A single effect that is neither a spawn, nor a script write, nor a
marker, appended to the log. -/
theorem StepOK.appendOne {ctx : EvalContext} {st : EvalState} (e : Effect)
    (h1 : e.spawnsProcess = false) (h2 : e.writesScript = false)
    (h3 : ∀ name, e ≠ .assignmentExpressionEvaluated name) :
    StepOK ctx st { st with log := st.log ++ [e] } :=
  .appendBenign [e] (by
    intro e' he'
    rcases List.mem_singleton.mp he' with rfl
    exact ⟨h1, h2, h3⟩)

/-- Every step of the evaluator core respects the state-evolution
invariant, on success and on error alike. -/
theorem evalCall_stepOK (ctx : EvalContext) :
    ∀ (fuel : Nat) (req : EvalReq) (st : EvalState),
      StepOK ctx st (evalCall ctx fuel req st).2 := by
  intro fuel
  induction fuel with
  | zero => intro req st; exact .refl
  | succ f ih =>
    intro req st
    match req with
    | .assignment name =>
      cases hc : lookupAL name st.evaluated with
      | some v => simp only [evalCall, hc]; exact .refl
      | none =>
        cases hA : lookupAL name ctx.assignments with
        | none => simp only [evalCall, hc, hA]; exact .refl
        | some expression =>
          cases hO : lookupAL name ctx.overrides with
          | some value =>
            simp only [evalCall, hc, hA, hO]
            exact .insertEval name value (by
              intro w hw
              rw [hO] at hw
              exact Option.some.inj hw)
          | none =>
            have hmark : StepOK ctx st
                { st with log := st.log ++ [.assignmentExpressionEvaluated name] } := by
              refine .append _ ?_ ?_
              · intro _ e he
                rcases List.mem_singleton.mp he with rfl
                exact ⟨rfl, rfl⟩
              · intro m hov hmem
                have h := List.mem_singleton.mp hmem
                injection h with h'
                subst h'
                rw [hO] at hov
                simp at hov
            have hrec := ih (.expr [] expression)
              { st with log := st.log ++ [.assignmentExpressionEvaluated name] }
            cases hE : evalCall ctx f (.expr [] expression)
                { st with log := st.log ++ [.assignmentExpressionEvaluated name] } with
            | mk res st' =>
              rw [hE] at hrec
              cases res with
              | ok v =>
                cases v with
                | str value =>
                  simp only [evalCall, hc, hA, hO, hE]
                  exact (hmark.trans hrec).trans
                    (.insertEval name value (by intro w hw; rw [hO] at hw; cases hw))
                | unit =>
                  simp only [evalCall, hc, hA, hO, hE]
                  exact hmark.trans hrec
                | strs vs =>
                  simp only [evalCall, hc, hA, hO, hE]
                  exact hmark.trans hrec
              | error e =>
                simp only [evalCall, hc, hA, hO, hE]
                exact hmark.trans hrec
    | .expr args (.variable name) =>
      cases hc : lookupAL name st.evaluated with
      | some v => simp only [evalCall, hc]; exact .refl
      | none =>
        cases hs : lookupAL name ctx.scope with
        | some v => simp only [evalCall, hc, hs]; exact .refl
        | none =>
          cases hA : lookupAL name ctx.assignments with
          | some e0 =>
            have hrec := ih (.assignment name) st
            cases hE : evalCall ctx f (.assignment name) st with
            | mk res st' =>
              rw [hE] at hrec
              cases res with
              | ok v =>
                cases hv : lookupAL name st'.evaluated with
                | some v' => simp only [evalCall, hc, hs, hA, hE, hv]; exact hrec
                | none => simp only [evalCall, hc, hs, hA, hE, hv]; exact hrec
              | error e1 => simp only [evalCall, hc, hs, hA, hE]; exact hrec
          | none =>
            cases ha : lookupAL name args with
            | some v => simp only [evalCall, hc, hs, hA, ha]; exact .refl
            | none => simp only [evalCall, hc, hs, hA, ha]; exact .refl
    | .expr args (.call name callArguments) =>
      have hrec := ih (.exprList args callArguments) st
      cases hE : evalCall ctx f (.exprList args callArguments) st with
      | mk res st' =>
        rw [hE] at hrec
        cases res with
        | ok v =>
          cases v with
          | strs values =>
            cases hF : ctx.functions name values with
            | ok v' => simp only [evalCall, hE, hF]; exact hrec
            | error e' => simp only [evalCall, hE, hF]; exact hrec
          | unit => simp only [evalCall, hE]; exact hrec
          | str s0 => simp only [evalCall, hE]; exact hrec
        | error e' => simp only [evalCall, hE]; exact hrec
    | .expr args (.string cooked) => simp only [evalCall]; exact .refl
    | .expr args (.backtick raw) =>
      cases hd : ctx.dryRun with
      | true => simp [evalCall, hd]; exact .refl
      | false =>
        cases hB : ctx.backtickOutput raw with
        | ok output =>
          simp only [evalCall, hd, Bool.false_eq_true, if_false, hB]
          exact .append [.backtickRun raw]
            (fun hdry => by rw [hd] at hdry; cases hdry)
            (by intro m hov hmem
                have h := List.mem_singleton.mp hmem
                cases h)
        | error oe =>
          simp only [evalCall, hd, Bool.false_eq_true, if_false, hB]
          exact .append [.backtickRun raw]
            (fun hdry => by rw [hd] at hdry; cases hdry)
            (by intro m hov hmem
                have h := List.mem_singleton.mp hmem
                cases h)
    | .expr args (.concatination lhs rhs) =>
      have hrec1 := ih (.expr args lhs) st
      cases hE1 : evalCall ctx f (.expr args lhs) st with
      | mk res1 st1 =>
        rw [hE1] at hrec1
        cases res1 with
        | ok v1 =>
          cases v1 with
          | str l =>
            have hrec2 := ih (.expr args rhs) st1
            cases hE2 : evalCall ctx f (.expr args rhs) st1 with
            | mk res2 st2 =>
              rw [hE2] at hrec2
              cases res2 with
              | ok v2 =>
                cases v2 with
                | str r => simp only [evalCall, hE1, hE2]; exact hrec1.trans hrec2
                | unit => simp only [evalCall, hE1, hE2]; exact hrec1.trans hrec2
                | strs vs => simp only [evalCall, hE1, hE2]; exact hrec1.trans hrec2
              | error e2 => simp only [evalCall, hE1, hE2]; exact hrec1.trans hrec2
          | unit => simp only [evalCall, hE1]; exact hrec1
          | strs vs => simp only [evalCall, hE1]; exact hrec1
        | error e1 => simp only [evalCall, hE1]; exact hrec1
    | .expr args (.group expression) =>
      simp only [evalCall]
      exact ih (.expr args expression) st
    | .exprList args [] => simp only [evalCall]; exact .refl
    | .exprList args (e :: rest) =>
      have hrec1 := ih (.expr args e) st
      cases hE1 : evalCall ctx f (.expr args e) st with
      | mk res1 st1 =>
        rw [hE1] at hrec1
        cases res1 with
        | ok v1 =>
          cases v1 with
          | str v =>
            have hrec2 := ih (.exprList args rest) st1
            cases hE2 : evalCall ctx f (.exprList args rest) st1 with
            | mk res2 st2 =>
              rw [hE2] at hrec2
              cases res2 with
              | ok v2 =>
                cases v2 with
                | strs vs => simp only [evalCall, hE1, hE2]; exact hrec1.trans hrec2
                | unit => simp only [evalCall, hE1, hE2]; exact hrec1.trans hrec2
                | str s0 => simp only [evalCall, hE1, hE2]; exact hrec1.trans hrec2
              | error e2 => simp only [evalCall, hE1, hE2]; exact hrec1.trans hrec2
          | unit => simp only [evalCall, hE1]; exact hrec1
          | strs vs => simp only [evalCall, hE1]; exact hrec1
        | error e1 => simp only [evalCall, hE1]; exact hrec1

/-- The wrapper returns the same state as the core call. -/
theorem evaluateExpression_state (ctx : EvalContext) (fuel : Nat)
    (args : List (String × String)) (e : Expression) (st : EvalState) :
    (evaluateExpression ctx fuel args e st).2 = (evalCall ctx fuel (.expr args e) st).2 := by
  unfold evaluateExpression
  cases evalCall ctx fuel (.expr args e) st with
  | mk res st' =>
    cases res with
    | ok v => cases v <;> rfl
    | error e' => rfl

theorem evaluateExpression_stepOK (ctx : EvalContext) (fuel : Nat)
    (args : List (String × String)) (e : Expression) (st : EvalState) :
    StepOK ctx st (evaluateExpression ctx fuel args e st).2 := by
  rw [evaluateExpression_state]
  exact evalCall_stepOK ctx fuel (.expr args e) st

theorem evaluateLineAux_stepOK (ctx : EvalContext) (fuel : Nat)
    (args : List (String × String)) :
    ∀ (line : List Fragment) (acc : String) (st : EvalState),
      StepOK ctx st (evaluateLineAux ctx fuel args acc line st).2 := by
  intro line
  induction line with
  | nil => intro acc st; exact .refl
  | cons frag rest ih =>
    intro acc st
    cases frag with
    | text lexeme => simp only [evaluateLineAux]; exact ih _ _
    | expression e =>
      have h1 := evaluateExpression_stepOK ctx fuel args e st
      cases hE : evaluateExpression ctx fuel args e st with
      | mk res st' =>
        rw [hE] at h1
        cases res with
        | ok v =>
          simp only [evaluateLineAux, hE]
          exact h1.trans (ih _ _)
        | error err =>
          simp only [evaluateLineAux, hE]
          exact h1

theorem evaluateLine_stepOK (ctx : EvalContext) (fuel : Nat)
    (args : List (String × String)) (line : List Fragment) (st : EvalState) :
    StepOK ctx st (evaluateLine ctx fuel args line st).2 :=
  evaluateLineAux_stepOK ctx fuel args line "" st

theorem evaluateLines_stepOK (ctx : EvalContext) (fuel : Nat)
    (args : List (String × String)) :
    ∀ (lines : List (List Fragment)) (st : EvalState),
      StepOK ctx st (evaluateLines ctx fuel args lines st).2 := by
  intro lines
  induction lines with
  | nil => intro st; exact .refl
  | cons line rest ih =>
    intro st
    have h1 := evaluateLine_stepOK ctx fuel args line st
    cases hE : evaluateLine ctx fuel args line st with
    | mk res st' =>
      rw [hE] at h1
      cases res with
      | ok v =>
        have h2 := ih st'
        cases hE2 : evaluateLines ctx fuel args rest st' with
        | mk res2 st'' =>
          rw [hE2] at h2
          cases res2 with
          | ok vs => simp only [evaluateLines, hE, hE2]; exact h1.trans h2
          | error e2 => simp only [evaluateLines, hE, hE2]; exact h1.trans h2
      | error e1 => simp only [evaluateLines, hE]; exact h1

theorem evalAssignmentsLoop_stepOK (ctx : EvalContext) (fuel : Nat) :
    ∀ (names : List String) (st : EvalState),
      StepOK ctx st (evalAssignmentsLoop ctx fuel names st).2 := by
  intro names
  induction names with
  | nil => intro st; exact .refl
  | cons name rest ih =>
    intro st
    have h1 := evalCall_stepOK ctx fuel (.assignment name) st
    cases hE : evalCall ctx fuel (.assignment name) st with
    | mk res st' =>
      rw [hE] at h1
      cases res with
      | ok v =>
        have h2 := ih st'
        simp only [evalAssignmentsLoop, hE]
        exact h1.trans h2
      | error e1 => simp only [evalAssignmentsLoop, hE]; exact h1

theorem bindParameters_stepOK (ctx : EvalContext) (fuel : Nat) :
    ∀ (params : List Parameter) (rest : List String)
      (argumentMap : List (String × String)) (st : EvalState),
      StepOK ctx st (bindParameters ctx fuel params rest argumentMap st).2 := by
  intro params
  induction params with
  | nil => intro rest argumentMap st; exact .refl
  | cons parameter ps ih =>
    intro rest argumentMap st
    cases rest with
    | nil =>
      cases hd : parameter.default with
      | some default =>
        have h1 := evaluateExpression_stepOK ctx fuel [] default st
        cases hE : evaluateExpression ctx fuel [] default st with
        | mk res st' =>
          rw [hE] at h1
          cases res with
          | ok value =>
            simp only [bindParameters, hd, hE]
            exact h1.trans (ih _ _ _)
          | error e1 => simp only [bindParameters, hd, hE]; exact h1
      | none => simp only [bindParameters, hd]; exact .refl
    | cons a rest' =>
      cases hv : parameter.variadic with
      | true =>
        simp only [bindParameters, hv, if_true]
        exact ih _ _ _
      | false =>
        simp only [bindParameters, hv, Bool.false_eq_true, if_false]
        exact ih _ _ _

theorem collectCommand_stepOK (ctx : EvalContext) (fuel : Nat)
    (args : List (String × String)) :
    ∀ (lines : List (List Fragment)) (acc : String) (n : Nat) (st : EvalState),
      StepOK ctx st (collectCommand ctx fuel args acc lines n st).2 := by
  intro lines
  induction lines with
  | nil => intro acc n st; exact .refl
  | cons line rest ih =>
    intro acc n st
    have h1 := evaluateLine_stepOK ctx fuel args line st
    cases hE : evaluateLine ctx fuel args line st with
    | mk res st' =>
      rw [hE] at h1
      cases res with
      | ok sv =>
        cases hcont : lineIsContinuation line with
        | true =>
          simp only [collectCommand, hE, hcont, if_true]
          exact h1.trans (ih _ _ _)
        | false =>
          simp only [collectCommand, hE, hcont, Bool.false_eq_true, if_false]
          exact h1
      | error e1 => simp only [collectCommand, hE]; exact h1

/-- Optionally printing a line respects the invariant. -/
theorem StepOK.printIf {ctx : EvalContext} {st : EvalState} (P : Prop) [Decidable P]
    (c : String) :
    StepOK ctx st (if P then { st with log := st.log ++ [.printErr c] } else st) := by
  by_cases h : P
  · simp only [h, if_true]
    exact .appendOne _ rfl rfl (fun _ hx => Effect.noConfusion hx)
  · simp only [h, if_false]
    exact .refl

theorem runLines_stepOK (ctx : EvalContext) (env : RunEnv) (config : Config)
    (recipeName : String) (recipeQuiet : Bool) (args : List (String × String))
    (hdry : ctx.dryRun = config.dryRun) :
    ∀ (fuel : Nat) (lines : List (List Fragment)) (n : Nat) (st : EvalState),
      StepOK ctx st (runLines ctx env config recipeName recipeQuiet args fuel lines n st).2 := by
  intro fuel
  induction fuel with
  | zero =>
    intro lines n st
    cases lines with
    | nil => exact .refl
    | cons l rest => exact .refl
  | succ f ih =>
    intro lines n st
    cases lines with
    | nil => exact .refl
    | cons line rest0 =>
      have h1 := collectCommand_stepOK ctx f args (line :: rest0) "" n st
      cases hE : collectCommand ctx f args "" (line :: rest0) n st with
      | mk res st' =>
        rw [hE] at h1
        cases res with
        | error e1 => simp only [runLines, hE]; exact h1
        | ok triple =>
          obtain ⟨command0, rest, n'⟩ := triple
          by_cases hcmd : (stripQuietFlag command0).snd = ""
          · simp only [runLines, hE, hcmd, if_true]
            exact h1.trans (ih rest n' st')
          · cases hdc : config.dryRun with
            | true =>
              simp only [runLines, hE, hdc, if_neg hcmd, Bool.true_or, if_true]
              exact h1.trans (StepOK.trans
                (.appendOne (.printErr (stripQuietFlag command0).snd) rfl rfl
                  (fun _ hx => Effect.noConfusion hx)) (ih rest n' _))
            | false =>
              have hspawn : ∀ (stx : EvalState),
                  StepOK ctx stx { stx with
                    log := stx.log ++ [.commandSpawned (stripQuietFlag command0).snd] } := by
                intro stx
                refine .append _ ?_ ?_
                · intro hdx
                  rw [hdry, hdc] at hdx
                  cases hdx
                · intro m hov hmem
                  have h := List.mem_singleton.mp hmem
                  cases h
              cases hs : env.commandStatus (stripQuietFlag command0).snd with
              | exited c =>
                by_cases h0 : c = 0
                · subst h0
                  simp only [runLines, hE, hdc, if_neg hcmd, Bool.false_or, hs, ne_eq,
                    not_true_eq_false, if_false, Bool.false_eq_true]
                  exact h1.trans ((StepOK.printIf _ _).trans ((hspawn _).trans (ih rest n' _)))
                · simp only [runLines, hE, hdc, if_neg hcmd, Bool.false_or, hs, ne_eq, h0,
                    not_false_eq_true, if_true, Bool.false_eq_true, if_false]
                  exact h1.trans ((StepOK.printIf _ _).trans (hspawn _))
              | killedBySignal sig =>
                cases sig with
                | some sv =>
                  simp only [runLines, hE, hdc, if_neg hcmd, Bool.false_or, hs,
                    Bool.false_eq_true, if_false]
                  exact h1.trans ((StepOK.printIf _ _).trans (hspawn _))
                | none =>
                  simp only [runLines, hE, hdc, if_neg hcmd, Bool.false_or, hs,
                    Bool.false_eq_true, if_false]
                  exact h1.trans ((StepOK.printIf _ _).trans (hspawn _))
              | launchFailed =>
                simp only [runLines, hE, hdc, if_neg hcmd, Bool.false_or, hs,
                  Bool.false_eq_true, if_false]
                exact h1.trans ((StepOK.printIf _ _).trans (hspawn _))

/-- Printing a list of lines respects the invariant. -/
theorem StepOK.printAllIf {ctx : EvalContext} {st : EvalState} (P : Prop) [Decidable P]
    (ls : List String) :
    StepOK ctx st (if P then { st with log := st.log ++ ls.map .printErr } else st) := by
  by_cases h : P
  · simp only [h, if_true]
    refine .appendBenign _ ?_
    intro e he
    obtain ⟨l, _, rfl⟩ := List.mem_map.mp he
    exact ⟨rfl, rfl, fun _ hx => Effect.noConfusion hx⟩
  · simp only [h, if_false]
    exact .refl

/-- The whole of `Recipe::run` respects the invariant. -/
theorem recipeRun_stepOK (env : RunEnv) (config : Config) (scope : List (String × String))
    (recipe : Recipe) (fuel : Nat) (arguments : List String) :
    StepOK (recipeEvalContext env config scope) (recipeInitState config recipe)
      (recipeRun env config scope recipe fuel arguments).2 := by
  set ctx := recipeEvalContext env config scope with hctx
  have hdry : ctx.dryRun = config.dryRun := rfl
  have hb := bindParameters_stepOK ctx fuel recipe.parameters arguments []
    (recipeInitState config recipe)
  cases hB : bindParameters ctx fuel recipe.parameters arguments []
      (recipeInitState config recipe) with
  | mk resB stB =>
    rw [hB] at hb
    cases resB with
    | error e => simp only [recipeRun, ← hctx, hB]; exact hb
    | ok argumentMap =>
      cases hsb : recipe.shebang with
      | false =>
        simp only [recipeRun, ← hctx, hB, hsb, Bool.false_eq_true, if_false]
        exact hb.trans
          (runLines_stepOK ctx env config recipe.name recipe.quiet argumentMap hdry
            fuel recipe.lines (recipe.lineNumber + 1) stB)
      | true =>
        have hl := evaluateLines_stepOK ctx fuel argumentMap recipe.lines stB
        cases hL : evaluateLines ctx fuel argumentMap recipe.lines stB with
        | mk resL stL =>
          rw [hL] at hl
          cases resL with
          | error e => simp only [recipeRun, ← hctx, hB, hsb, if_true, hL]; exact hb.trans hl
          | ok evaluatedLines =>
            have hpl : StepOK ctx stL
                (if (config.dryRun || recipe.quiet) = true then
                  { stL with log := stL.log ++ evaluatedLines.map .printErr }
                 else stL) :=
              StepOK.printAllIf _ _
            cases hdc : config.dryRun with
            | true =>
              simp only [recipeRun, ← hctx, hB, hsb, if_true, hL, hdc, Bool.true_or]
              exact hb.trans (hl.trans (by simpa [hdc] using hpl))
            | false =>
              cases evaluatedLines with
              | nil =>
                simp only [recipeRun, ← hctx, hB, hsb, if_true, hL, hdc,
                  Bool.false_eq_true, if_false, Bool.false_or]
                exact hb.trans (hl.trans (by simpa [hdc] using hpl))
              | cons first restL =>
                have hpl2 : StepOK ctx stL
                    (if recipe.quiet = true then
                      { stL with log := stL.log ++ ((first :: restL).map .printErr) }
                     else stL) := by
                  simpa only [hdc, Bool.false_or] using hpl
                have hwrite : ∀ (stx : EvalState), StepOK ctx stx
                    { stx with log := stx.log ++
                      [.tmpScriptWritten recipe.name
                        (shebangScriptText recipe.lineNumber (first :: restL))] } := by
                  intro stx
                  refine .append _ ?_ ?_
                  · intro hdx
                    rw [hdry, hdc] at hdx
                    cases hdx
                  · intro m hov hmem
                    have h := List.mem_singleton.mp hmem
                    cases h
                have hspawn : ∀ (sb : Shebang) (stx : EvalState), StepOK ctx stx
                    { stx with log := stx.log ++ [.scriptSpawned sb.interpreter sb.argument] } := by
                  intro sb stx
                  refine .append _ ?_ ?_
                  · intro hdx
                    rw [hdry, hdc] at hdx
                    cases hdx
                  · intro m hov hmem
                    have h := List.mem_singleton.mp hmem
                    cases h
                have hpre : StepOK ctx (recipeInitState config recipe)
                    (if recipe.quiet = true then
                      { stL with log := stL.log ++ ((first :: restL).map .printErr) }
                     else stL) :=
                  hb.trans (hl.trans hpl2)
                have hprint := @StepOK.printIf ctx
                  (if recipe.quiet = true then
                    { stL with log := stL.log ++ ((first :: restL).map .printErr) }
                   else stL)
                  (config.verbosity.isGrandiloquent = true) _
                  (shebangScriptText recipe.lineNumber (first :: restL))
                simp only [recipeRun, ← hctx, hB, hsb, if_true, hL, hdc,
                  Bool.false_eq_true, if_false, Bool.false_or]
                cases hsh : Shebang.new first with
                | none =>
                  exact hpre.trans (hprint.trans (hwrite _))
                | some sb =>
                  cases hss : env.scriptStatus sb.interpreter sb.argument recipe.name with
                  | exited c =>
                    by_cases h0 : c = 0
                    · subst h0
                      simp only [hsh, hss, ne_eq, not_true_eq_false, if_false]
                      exact hpre.trans (hprint.trans ((hwrite _).trans (hspawn _ _)))
                    · simp only [hsh, hss, ne_eq, h0, not_false_eq_true, if_true]
                      exact hpre.trans (hprint.trans ((hwrite _).trans (hspawn _ _)))
                  | killedBySignal sig =>
                    cases sig with
                    | some sv =>
                      simp only [hsh, hss]
                      exact hpre.trans (hprint.trans ((hwrite _).trans (hspawn _ _)))
                    | none =>
                      simp only [hsh, hss]
                      exact hpre.trans (hprint.trans ((hwrite _).trans (hspawn _ _)))
                  | launchFailed =>
                    simp only [hsh, hss]
                    exact hpre.trans (hprint.trans ((hwrite _).trans (hspawn _ _)))

/-- A successful `evaluate_assignment` leaves the name in the `evaluated`
map (it was either cached already, or the override or the expression value
was inserted). -/
theorem evalCall_assignment_isSome (ctx : EvalContext) (f : Nat) (name : String)
    (st : EvalState) (v : EvalValue) (st' : EvalState)
    (h : evalCall ctx (f + 1) (.assignment name) st = (.ok v, st')) :
    (lookupAL name st'.evaluated).isSome := by
  cases hc : lookupAL name st.evaluated with
  | some w =>
    simp only [evalCall, hc, Prod.mk.injEq] at h
    obtain ⟨h1, h2⟩ := h
    subst h2
    simp [hc]
  | none =>
    cases hA : lookupAL name ctx.assignments with
    | none => simp [evalCall, hc, hA] at h
    | some expression =>
      cases hO : lookupAL name ctx.overrides with
      | some value =>
        simp only [evalCall, hc, hA, hO, Prod.mk.injEq] at h
        obtain ⟨h1, h2⟩ := h
        subst h2
        simp [lookupAL_insertAL_self]
      | none =>
        cases hE : evalCall ctx f (.expr [] expression)
            { st with log := st.log ++ [.assignmentExpressionEvaluated name] } with
        | mk res st1 =>
          cases res with
          | ok w =>
            cases w with
            | str value =>
              simp only [evalCall, hc, hA, hO, hE, Prod.mk.injEq] at h
              obtain ⟨h1, h2⟩ := h
              subst h2
              simp [lookupAL_insertAL_self]
            | unit => simp [evalCall, hc, hA, hO, hE] at h
            | strs vs => simp [evalCall, hc, hA, hO, hE] at h
          | error e => simp [evalCall, hc, hA, hO, hE] at h

/-- A successful run of the assignment loop leaves every visited name in the
`evaluated` map. -/
theorem evalAssignmentsLoop_complete (ctx : EvalContext) (fuel : Nat) :
    ∀ (names : List String) (st : EvalState) (u : Unit) (st' : EvalState),
      evalAssignmentsLoop ctx fuel names st = (.ok u, st') →
      ∀ name ∈ names, (lookupAL name st'.evaluated).isSome := by
  intro names
  induction names with
  | nil => intro st u st' h name hmem; cases hmem
  | cons n rest ih =>
    intro st u st' h name hmem
    cases fuel with
    | zero => simp [evalAssignmentsLoop, evalCall] at h
    | succ f =>
      cases hE : evalCall ctx (f + 1) (.assignment n) st with
      | mk res st1 =>
        cases res with
        | ok v =>
          simp only [evalAssignmentsLoop, hE] at h
          rcases List.mem_cons.mp hmem with rfl | hmem'
          · have hS := evalCall_assignment_isSome ctx f name st v st1 hE
            have hmono := evalAssignmentsLoop_stepOK ctx (f + 1) rest st1
            rw [h] at hmono
            exact hmono.evaluated_mono name hS
          · exact ih st1 u st' h name hmem'
        | error e => simp [evalAssignmentsLoop, hE] at h

/-! ## List and string helper lemmas -/

theorem head?_dropWhile_not {α : Type} (p : α → Bool) :
    ∀ (l : List α) (a : α), (l.dropWhile p).head? = some a → p a = false := by
  intro l
  induction l with
  | nil => intro a h; simp [List.dropWhile] at h
  | cons x xs ih =>
    intro a h
    cases hp : p x with
    | true =>
      rw [List.dropWhile_cons_of_pos hp] at h
      exact ih a h
    | false =>
      rw [List.dropWhile_cons_of_neg (by simp [hp])] at h
      simp only [List.head?_cons, Option.some.injEq] at h
      subst h
      exact hp

theorem dropWhile_length_le {α : Type} (p : α → Bool) :
    ∀ l : List α, (l.dropWhile p).length ≤ l.length := by
  intro l
  induction l with
  | nil => simp [List.dropWhile]
  | cons x xs ih =>
    cases hp : p x with
    | true =>
      rw [List.dropWhile_cons_of_pos hp]
      exact Nat.le_succ_of_le ih
    | false =>
      rw [List.dropWhile_cons_of_neg (by simp [hp])]

theorem dropWhile_eq_self_of_length {α : Type} (p : α → Bool) :
    ∀ l : List α, (l.dropWhile p).length = l.length → l.dropWhile p = l := by
  intro l
  induction l with
  | nil => intro _; rfl
  | cons x xs ih =>
    intro h
    cases hp : p x with
    | false => rw [List.dropWhile_cons_of_neg (by simp [hp])]
    | true =>
      rw [List.dropWhile_cons_of_pos hp] at h
      have hle := dropWhile_length_le p xs
      simp only [List.length_cons] at h
      omega

theorem dropLast_append_of_getLast? {α : Type} :
    ∀ (l : List α) (c : α), l.getLast? = some c → l.dropLast ++ [c] = l := by
  intro l
  induction l with
  | nil => intro c h; cases h
  | cons x xs ih =>
    intro c h
    cases xs with
    | nil =>
      simp only [List.getLast?_singleton, Option.some.injEq] at h
      subst h
      rfl
    | cons y ys =>
      rw [List.getLast?_cons_cons] at h
      have hrec := ih c h
      calc (x :: y :: ys).dropLast ++ [c] = x :: ((y :: ys).dropLast ++ [c]) := by
            simp [List.dropLast]
        _ = x :: y :: ys := by rw [hrec]

theorem dropLast_append_left {α : Type} (l₁ : List α) :
    ∀ l₂ : List α, l₂ ≠ [] → (l₁ ++ l₂).dropLast = l₁ ++ l₂.dropLast := by
  induction l₁ with
  | nil => intro l₂ _; simp
  | cons x xs ih =>
    intro l₂ h
    have hne : xs ++ l₂ ≠ [] := by
      intro hx
      exact h (List.append_eq_nil.mp hx).2
    calc ((x :: xs) ++ l₂).dropLast = x :: (xs ++ l₂).dropLast := by
          cases hxs : xs ++ l₂ with
          | nil => exact absurd hxs hne
          | cons z zs => simp [hxs, List.dropLast]
      _ = x :: (xs ++ l₂.dropLast) := by rw [ih l₂ h]
      _ = (x :: xs) ++ l₂.dropLast := rfl

theorem string_mk_data (s : String) : String.mk s.data = s := by
  cases s; rfl

theorem string_eq_of_data {a b : String} (h : a.data = b.data) : a = b := by
  cases a; cases b; exact congrArg String.mk h

/-- Rust `String::pop` on an append whose right part is nonempty pops from
the right part. -/
theorem strPop_append (a s : String) (h : s.data ≠ []) :
    strPop (a ++ s) = a ++ strPop s := by
  apply string_eq_of_data
  show ((a ++ s).data.dropLast) = (a ++ strPop s).data
  rw [strData_append, strData_append, dropLast_append_left a.data s.data h]
  rfl

/-! ## Claim C1 (code bug): the Variables iterator -/

/-- Claim C1, evaluated at the failing input.  `Variables::next` returns
`None` upon popping a `String`, which ends the whole iteration and discards
the `Variable` still on the stack: over `x + "s"` (Variable on the left of a
String) no token is yielded, although the claim requires `x`.  With the
operands swapped — the claim's own example, string literal on the left — the
variable is popped first and is yielded, so the iterator demonstrably
discards the remainder of the stack rather than skipping the subtree. -/
theorem c1_variables_stops_at_string :
    Variables (.concatination (.variable "x") (.string "s")) = [] ∧
    Variables (.concatination (.string "s") (.variable "x")) = ["x"] :=
  ⟨rfl, rfl⟩

/-! ## Claim C10: no trailing blank body lines -/

/-- Claim C10: the parser's trailing-blank-line removal (parser.rs:235-237)
leaves a line list that never ends with an empty line, and removes only a
trailing all-empty suffix, so blank lines between non-blank body lines are
kept; in particular a shebang recipe's last stored line is non-empty. -/
theorem c10_no_trailing_blank_lines :
    ∀ lines : List (List Fragment),
      (∀ last, (stripTrailingBlankLines lines).getLast? = some last → last ≠ []) ∧
      ∃ blank, lines = stripTrailingBlankLines lines ++ blank ∧ ∀ l ∈ blank, l = [] := by
  intro lines
  constructor
  · intro last h
    unfold stripTrailingBlankLines at h
    rw [List.getLast?_reverse] at h
    have hlast := head?_dropWhile_not List.isEmpty lines.reverse last h
    intro hcon
    subst hcon
    simp at hlast
  · refine ⟨(lines.reverse.takeWhile List.isEmpty).reverse, ?_, ?_⟩
    · calc lines = lines.reverse.reverse := (List.reverse_reverse lines).symm
        _ = (lines.reverse.takeWhile List.isEmpty
              ++ lines.reverse.dropWhile List.isEmpty).reverse := by
            rw [List.takeWhile_append_dropWhile]
        _ = (lines.reverse.dropWhile List.isEmpty).reverse
              ++ (lines.reverse.takeWhile List.isEmpty).reverse := by
            rw [List.reverse_append]
        _ = stripTrailingBlankLines lines
              ++ (lines.reverse.takeWhile List.isEmpty).reverse := rfl
    · intro l hl
      rw [List.mem_reverse] at hl
      have := List.mem_takeWhile_imp hl
      simpa using this

/-- Witness for C10 at a concrete line list with two trailing blank lines. -/
theorem c10_witness :
    ([Fragment.text "a"] : List Fragment) ≠ [] ∧
    ∃ blank, ([[Fragment.text "a"], [], []] : List (List Fragment))
      = stripTrailingBlankLines [[Fragment.text "a"], [], []] ++ blank ∧ ∀ l ∈ blank, l = [] :=
  ⟨(c10_no_trailing_blank_lines [[Fragment.text "a"], [], []]).1 [Fragment.text "a"] rfl,
   (c10_no_trailing_blank_lines [[Fragment.text "a"], [], []]).2⟩

/-! ## Claim C9 (corrected): doc-comment stripping -/

/-- Claim C9, refuted at a concrete comment: the code computes
`lexeme[1..].trim()`, so for the comment lexeme `"#  x"` the doc is `"x"`,
not `" x"` as the claim ("exactly the leading `#` and one following space
removed, no other characters") requires. -/
theorem c9_counterexample :
    recipeDocOfComment "#  x" = "x" ∧ "x" ≠ " x" :=
  ⟨rfl, by decide⟩

/-- Claim C9 as amended: the doc is the comment lexeme with the leading `#`
removed and surrounding whitespace trimmed from both ends; when the comment
has the shape `"# <text>"` with `<text>` carrying no surrounding whitespace,
this agrees with the claim and the doc is exactly `<text>`. -/
theorem c9_doc_comment_trimmed :
    ∀ text : String, strTrim text = text →
      recipeDocOfComment ("# " ++ text) = text := by
  intro text h
  have hd : ((text.data.dropWhile Char.isWhitespace).reverse.dropWhile
      Char.isWhitespace).reverse = text.data := congrArg String.data h
  have hlen : (text.data.dropWhile Char.isWhitespace).length = text.data.length := by
    have h1 := dropWhile_length_le Char.isWhitespace text.data
    have h2 := dropWhile_length_le Char.isWhitespace
      (text.data.dropWhile Char.isWhitespace).reverse
    have h3 := congrArg List.length hd
    simp only [List.length_reverse] at h3
    rw [List.length_reverse] at h2
    omega
  have hstart : text.data.dropWhile Char.isWhitespace = text.data :=
    dropWhile_eq_self_of_length Char.isWhitespace text.data hlen
  rw [hstart] at hd
  apply string_eq_of_data
  show ((("# " ++ text).data.tail.dropWhile Char.isWhitespace).reverse.dropWhile
      Char.isWhitespace).reverse = text.data
  have hdata : ("# " ++ text).data = '#' :: ' ' :: text.data := by
    rw [strData_append]; rfl
  rw [hdata]
  simp only [List.tail_cons]
  rw [List.dropWhile_cons_of_pos (by decide), hstart, hd]

/-- Witness for the amended C9 at the comment `"# hello"`. -/
theorem c9_witness : recipeDocOfComment ("# " ++ "hello") = "hello" :=
  c9_doc_comment_trimmed "hello" rfl

/-! ## Concrete fixtures shared by the witnesses -/

def emptyState : EvalState := { evaluated := [], log := [] }

def fixtureContext : EvalContext :=
  { assignments := [], overrides := [], scope := [], dryRun := false, quiet := false,
    shell := "sh", functions := fun _ _ => .error (.internal "no fn"),
    backtickOutput := fun _ => .ok "out" }

def dryContext : EvalContext := { fixtureContext with dryRun := true }

def variadicRecipe : Recipe :=
  { dependencies := [], doc := none, lineNumber := 0, lines := [], name := "r",
    parameters := [{ name := "x", default := none, variadic := true }],
    privateFlag := false, quiet := false, shebang := false }

def lineRecipe : Recipe :=
  { dependencies := [], doc := none, lineNumber := 0, lines := [[.text "echo hi"]],
    name := "r", parameters := [], privateFlag := false, quiet := false, shebang := false }

def shebangRecipe : Recipe :=
  { lineRecipe with lines := [[.text "#!s"], [.text "echo"]], shebang := true }

def runFixtureEnv : RunEnv :=
  { functions := fun _ _ => .error (.internal "no fn"),
    backtickOutput := fun _ => .ok "out",
    commandStatus := fun _ => .exited 0,
    scriptStatus := fun _ _ _ => .exited 0 }

def dryConfig : Config :=
  { dryRun := true, highlight := false, quiet := false, shell := "sh",
    verbosity := .taciturn }

def wetConfig : Config := { dryConfig with dryRun := false }

/-! ## Claim C4 (corrected): the argument range -/

/-- Claim C4, refuted at a concrete argument count: for a recipe with a
variadic parameter the range is not unbounded above — `Recipe::max_arguments`
returns the literal `usize::MAX - 1` (recipe.rs:55), so the valid `usize`
argument count `usize::MAX` is rejected with `ArgumentCountMismatch` even
though it is at least `min`. -/
theorem c4_counterexample :
    variadicRecipe.minArguments = 1 ∧ 1 ≤ usizeMax ∧
    checkArgumentCount variadicRecipe usizeMax ≠ .ok () := by
  refine ⟨rfl, by decide, ?_⟩
  intro h
  rw [show checkArgumentCount variadicRecipe usizeMax
      = .error (.argumentCountMismatch "r" usizeMax 1 (usizeMax - 1)) from rfl] at h
  cases h

theorem all_defaults_required_zero :
    ∀ ps : List Parameter, (∀ q ∈ ps, q.default.isSome = true) →
      requiredParameterCount ps = 0 := by
  intro ps
  induction ps with
  | nil => intro _; rfl
  | cons q qs ih =>
    intro h
    have hq := h q (List.mem_cons_self q qs)
    have hqs := ih (fun r hr => h r (List.mem_cons_of_mem q hr))
    cases hd : q.default with
    | none => rw [hd] at hq; cases hq
    | some d =>
      simp only [requiredParameterCount, List.filter_cons, hd] at hqs ⊢
      simpa [requiredParameterCount] using hqs

/-- Claim C4 as amended: the accepted argument range is `[min, max]` with
`min` the required-parameter count and `max` equal to `usize::MAX - 1` when
some parameter is variadic (not unbounded) and to the parameter count
otherwise; counts outside the range raise `ArgumentCountMismatch`, and for a
well-formed parameter list any count of at least `min` whose defaults all
evaluate successfully yields a binding. -/
theorem c4_argument_range :
    (∀ (r : Recipe) (found : Nat),
      checkArgumentCount r found = .ok ()
        ↔ (r.minArguments ≤ found ∧ found ≤ r.maxArguments)) ∧
    (∀ r : Recipe, r.parameters.any (fun p => p.variadic) = true →
      r.maxArguments = usizeMax - 1) ∧
    (∀ (r : Recipe) (found : Nat), ¬(r.minArguments ≤ found ∧ found ≤ r.maxArguments) →
      checkArgumentCount r found
        = .error (.argumentCountMismatch r.name found r.minArguments r.maxArguments)) ∧
    (∀ (ctx : EvalContext) (fuel : Nat) (params : List Parameter) (args : List String)
       (m : List (String × String)) (st : EvalState),
      wellFormedParameters params = true →
      requiredParameterCount params ≤ args.length →
      (∀ d ∈ params.filterMap Parameter.default,
        ∀ stX : EvalState, ∃ v stY, evaluateExpression ctx fuel [] d stX = (.ok v, stY)) →
      ∃ m' st', bindParameters ctx fuel params args m st = (.ok m', st')) := by
  refine ⟨?_, ?_, ?_, ?_⟩
  · intro r found
    unfold checkArgumentCount Recipe.argumentRangeContains
    by_cases h1 : r.minArguments ≤ found <;> by_cases h2 : found ≤ r.maxArguments <;>
      simp [h1, h2]
  · intro r h
    simp [Recipe.maxArguments, h]
  · intro r found h
    unfold checkArgumentCount Recipe.argumentRangeContains
    rcases Decidable.not_and_iff_or_not.mp h with h1 | h1 <;> simp [h1]
  · intro ctx fuel params
    induction params with
    | nil => intro args m st _ _ _; exact ⟨m, st, rfl⟩
    | cons p ps ih =>
      intro args m st hwf hreq hdef
      have hwfs : (!p.variadic || ps.isEmpty) = true ∧
          (!p.default.isSome || ps.all fun q => q.default.isSome) = true ∧
          wellFormedParameters ps = true := by
        simp only [wellFormedParameters, Bool.and_eq_true] at hwf
        exact ⟨hwf.1.1, hwf.1.2, hwf.2⟩
      have hdef' : ∀ d ∈ ps.filterMap Parameter.default,
          ∀ stX : EvalState, ∃ v stY, evaluateExpression ctx fuel [] d stX = (.ok v, stY) := by
        intro d hd stX
        refine hdef d ?_ stX
        cases hpd : p.default with
        | none => simpa [List.filterMap_cons, hpd] using hd
        | some d0 => simp [List.filterMap_cons, hpd, hd]
      cases args with
      | nil =>
        cases hd : p.default with
        | none =>
          exfalso
          have : 1 ≤ requiredParameterCount (p :: ps) := by
            simp [requiredParameterCount, List.filter_cons, hd]
          simp only [List.length_nil] at hreq
          omega
        | some d =>
          obtain ⟨v, stY, hEv⟩ := hdef d (by simp [List.filterMap_cons, hd]) st
          have hall : ∀ q ∈ ps, q.default.isSome = true := by
            have h2 := hwfs.2.1
            rw [hd] at h2
            simp only [Option.isSome_some, Bool.not_true, Bool.false_or,
              List.all_eq_true] at h2
            exact fun q hq => h2 q hq
          obtain ⟨m', st', hB⟩ := ih [] (insertAL p.name v m) stY hwfs.2.2
            (by rw [all_defaults_required_zero ps hall]; exact Nat.zero_le _) hdef'
          exact ⟨m', st', by simp [bindParameters, hd, hEv, hB]⟩
      | cons a rest =>
        cases hv : p.variadic with
        | true =>
          have hps : ps = [] := by
            have h1 := hwfs.1
            rw [hv] at h1
            simpa [List.isEmpty_iff] using h1
          subst hps
          exact ⟨insertAL p.name (String.intercalate " " (a :: rest)) m, st,
            by simp [bindParameters, hv]⟩
        | false =>
          have hreq' : requiredParameterCount ps ≤ rest.length := by
            cases hd : p.default with
            | none =>
              have hstep : requiredParameterCount (p :: ps)
                  = requiredParameterCount ps + 1 := by
                simp [requiredParameterCount, List.filter_cons, hd]
              simp only [List.length_cons] at hreq
              omega
            | some d =>
              have hall : ∀ q ∈ ps, q.default.isSome = true := by
                have h2 := hwfs.2.1
                rw [hd] at h2
                simp only [Option.isSome_some, Bool.not_true, Bool.false_or,
                  List.all_eq_true] at h2
                exact fun q hq => h2 q hq
              rw [all_defaults_required_zero ps hall]
              exact Nat.zero_le _
          obtain ⟨m', st', hB⟩ := ih rest (insertAL p.name a m) st hwfs.2.2 hreq' hdef'
          exact ⟨m', st', by simp [bindParameters, hv, hB]⟩

/-- Witness for the amended C4: a variadic recipe accepts five arguments,
and a one-required-parameter list binds one argument. -/
theorem c4_witness :
    checkArgumentCount variadicRecipe 5 = .ok () ∧
    ∃ m' st', bindParameters fixtureContext 1
      [{ name := "x", default := none, variadic := false }] ["a"] [] emptyState
      = (.ok m', st') := by
  constructor
  · exact (c4_argument_range.1 variadicRecipe 5).mpr ⟨by decide, by decide⟩
  · exact c4_argument_range.2.2.2 fixtureContext 1
      [{ name := "x", default := none, variadic := false }] ["a"] [] emptyState
      rfl (by decide) (by intro d hd; simp at hd)

/-! ## Claim C5 (corrected): parameter binding -/

/-- Claim C5, refuted at a concrete variadic parameter: when no arguments
remain, `Recipe::run` takes the `rest.is_empty()` branch first (recipe.rs:96)
and evaluates the parameter's default — here the string literal `"d"` — so a
variadic parameter with a default is bound to `"d"`, not to the empty string
the claim requires. -/
theorem c5_counterexample :
    bindParameters fixtureContext 1
        [{ name := "x", default := some (.string "d"), variadic := true }] [] [] emptyState
      = (.ok [("x", "d")], emptyState) ∧ "d" ≠ "" :=
  ⟨rfl, by decide⟩

/-- Claim C5 as amended: a non-variadic parameter with arguments remaining
consumes the next argument; a variadic parameter with arguments remaining
takes all of them joined by single spaces; and a parameter — variadic or not
— with no argument remaining evaluates its default, an internal error being
raised when it has none.  (For in-range argument counts a variadic parameter
without a default always receives at least one argument, because it counts
toward `min`.) -/
theorem c5_parameter_binding :
    (∀ (ctx : EvalContext) (fuel : Nat) (st : EvalState) (p : Parameter)
       (ps : List Parameter) (a : String) (rest : List String)
       (m : List (String × String)), p.variadic = false →
      bindParameters ctx fuel (p :: ps) (a :: rest) m st
        = bindParameters ctx fuel ps rest (insertAL p.name a m) st) ∧
    (∀ (ctx : EvalContext) (fuel : Nat) (st : EvalState) (p : Parameter)
       (ps : List Parameter) (a : String) (rest : List String)
       (m : List (String × String)), p.variadic = true →
      bindParameters ctx fuel (p :: ps) (a :: rest) m st
        = bindParameters ctx fuel ps []
            (insertAL p.name (String.intercalate " " (a :: rest)) m) st) ∧
    (∀ (ctx : EvalContext) (fuel : Nat) (st : EvalState) (p : Parameter)
       (ps : List Parameter) (m : List (String × String)), p.default = none →
      bindParameters ctx fuel (p :: ps) [] m st
        = (.error (.internal "missing parameter without default"), st)) ∧
    (∀ (ctx : EvalContext) (fuel : Nat) (st st' : EvalState) (p : Parameter)
       (ps : List Parameter) (d : Expression) (m : List (String × String)) (v : String),
      p.default = some d →
      evaluateExpression ctx fuel [] d st = (.ok v, st') →
      bindParameters ctx fuel (p :: ps) [] m st
        = bindParameters ctx fuel ps [] (insertAL p.name v m) st') := by
  refine ⟨?_, ?_, ?_, ?_⟩
  · intro ctx fuel st p ps a rest m hv
    simp [bindParameters, hv]
  · intro ctx fuel st p ps a rest m hv
    simp [bindParameters, hv]
  · intro ctx fuel st p ps m hd
    simp [bindParameters, hd]
  · intro ctx fuel st st' p ps d m v hd hEv
    simp [bindParameters, hd, hEv]

/-- Witness for the amended C5: a variadic parameter takes the two remaining
arguments joined by a space, and with none remaining evaluates its default. -/
theorem c5_witness :
    bindParameters fixtureContext 1
        [{ name := "y", default := none, variadic := true }] ["a", "b"] [] emptyState
      = bindParameters fixtureContext 1 [] []
          (insertAL "y" (String.intercalate " " ["a", "b"]) []) emptyState ∧
    bindParameters fixtureContext 1
        [{ name := "x", default := some (.string "d"), variadic := true }] [] [] emptyState
      = bindParameters fixtureContext 1 [] [] (insertAL "x" "d" []) emptyState :=
  ⟨c5_parameter_binding.2.1 fixtureContext 1 emptyState
      { name := "y", default := none, variadic := true } [] "a" ["b"] [] rfl,
   c5_parameter_binding.2.2.2 fixtureContext 1 emptyState emptyState
      { name := "x", default := some (.string "d"), variadic := true } [] (.string "d") []
      "d" rfl rfl⟩

/-! ## Claim C6: line-continuation joining -/

theorem getLast?_append_right {α : Type} (l₁ l₂ : List α) (h : l₂ ≠ []) :
    (l₁ ++ l₂).getLast? = l₂.getLast? := by
  induction l₁ with
  | nil => rfl
  | cons x xs ih =>
    have hne : xs ++ l₂ ≠ [] := fun hx => h (List.append_eq_nil.mp hx).2
    cases hxs : xs ++ l₂ with
    | nil => exact absurd hxs hne
    | cons z zs => rw [List.cons_append, hxs, List.getLast?_cons_cons, ← hxs, ih]

/-- The result of `evaluate_line` ends with the lexeme of the line's last
Text fragment. -/
theorem evaluateLineAux_last_text (ctx : EvalContext) (fuel : Nat)
    (args : List (String × String)) :
    ∀ (line : List Fragment) (t : String) (acc s : String) (st st1 : EvalState),
      line.getLast? = some (.text t) →
      evaluateLineAux ctx fuel args acc line st = (.ok s, st1) →
      ∃ pre, s = pre ++ t := by
  intro line
  induction line with
  | nil => intro t acc s st st1 h _; cases h
  | cons f fs ih =>
    intro t acc s st st1 hlast hEv
    cases fs with
    | nil =>
      simp only [List.getLast?_singleton, Option.some.injEq] at hlast
      subst hlast
      simp only [evaluateLineAux, Prod.mk.injEq, Except.ok.injEq] at hEv
      exact ⟨acc, hEv.1.symm⟩
    | cons f2 fs2 =>
      have hlast' : (f2 :: fs2).getLast? = some (.text t) := by
        rw [List.getLast?_cons_cons] at hlast; exact hlast
      cases f with
      | text lex =>
        simp only [evaluateLineAux] at hEv
        exact ih t (acc ++ lex) s st st1 hlast' hEv
      | expression e =>
        cases hE : evaluateExpression ctx fuel args e st with
        | mk res st2 =>
          cases res with
          | ok v =>
            simp only [evaluateLineAux, hE] at hEv
            exact ih t (acc ++ v) s st2 st1 hlast' hEv
          | error err => simp [evaluateLineAux, hE] at hEv

/-- Claim C6: whenever the last fragment of a consumed body line is a Text
fragment whose lexeme ends with a backslash, the evaluated text of that line
also ends with that backslash, `evaluated.pop()` removes exactly it, and the
joining loop continues with the next body line appended directly to the
result — nothing is inserted between the two lines' evaluated text. -/
theorem c6_line_continuation (ctx : EvalContext) (fuel : Nat)
    (args : List (String × String)) (line : List Fragment) (t : String)
    (rest : List (List Fragment)) (acc s : String) (n : Nat) (st st1 : EvalState)
    (hlast : line.getLast? = some (.text t))
    (hbs : t.data.getLast? = some '\\')
    (hEv : evaluateLine ctx fuel args line st = (.ok s, st1)) :
    s.data.getLast? = some '\\' ∧
    s = strPop s ++ "\\" ∧
    collectCommand ctx fuel args acc (line :: rest) n st
      = collectCommand ctx fuel args (acc ++ strPop s) rest (n + 1) st1 := by
  obtain ⟨pre, hs⟩ := evaluateLineAux_last_text ctx fuel args line t "" s st st1 hlast hEv
  have htne : t.data ≠ [] := by
    intro hx
    rw [hx] at hbs
    cases hbs
  have hsdata : s.data = pre.data ++ t.data := by rw [hs, strData_append]
  have hsend : s.data.getLast? = some '\\' := by
    rw [hsdata, getLast?_append_right pre.data t.data htne]
    exact hbs
  have hsne : s.data ≠ [] := by
    intro hx
    rw [hx] at hsend
    cases hsend
  refine ⟨hsend, ?_, ?_⟩
  · apply string_eq_of_data
    show s.data = (strPop s ++ "\\").data
    rw [strData_append]
    exact (dropLast_append_of_getLast? s.data '\\' hsend).symm
  · have hcont : lineIsContinuation line = true := by
      simp [lineIsContinuation, hlast, Fragment.continuation, hbs]
    calc collectCommand ctx fuel args acc (line :: rest) n st
        = collectCommand ctx fuel args (strPop (acc ++ s)) rest (n + 1) st1 := by
          simp [collectCommand, hEv, hcont]
      _ = collectCommand ctx fuel args (acc ++ strPop s) rest (n + 1) st1 := by
          rw [strPop_append acc s hsne]

/-- Witness for C6: the line `echo \` joins with the next line ` world`. -/
theorem c6_witness :
    collectCommand fixtureContext 1 [] ""
        [[Fragment.text "echo \\"], [Fragment.text " world"]] 3 emptyState
      = collectCommand fixtureContext 1 [] ("" ++ strPop "echo \\")
          [[Fragment.text " world"]] 4 emptyState :=
  (c6_line_continuation fixtureContext 1 [] [Fragment.text "echo \\"] "echo \\"
    [[Fragment.text " world"]] "" "echo \\" 3 emptyState emptyState rfl rfl rfl).2.2

/-! ## Claim C7 (corrected): the shebang temp script -/

theorem splitLines_append_newline :
    ∀ (a b : List Char), '\n' ∉ a → splitLines (a ++ '\n' :: b) = a :: splitLines b := by
  intro a
  induction a with
  | nil => intro b _; simp [splitLines]
  | cons c cs ih =>
    intro b ha
    have hc : ¬(c = '\n') := fun h => ha (by rw [h]; exact List.mem_cons_self _ _)
    have ha' : '\n' ∉ cs := fun h => ha (List.mem_cons_of_mem c h)
    simp [splitLines, hc, ih b ha']

theorem splitLines_newlines_prefix :
    ∀ (n : Nat) (b : List Char),
      splitLines (List.replicate n '\n' ++ b) = List.replicate n [] ++ splitLines b := by
  intro n
  induction n with
  | zero => intro b; simp
  | succ k ih => intro b; simp [List.replicate_succ, splitLines, ih]

theorem newlines_data : ∀ n : Nat, (newlines n).data = List.replicate n '\n' := by
  intro n
  induction n with
  | zero => rfl
  | succ k ih =>
    show (newlines k ++ "\n").data = _
    rw [strData_append, ih, List.replicate_succ']

theorem splitLines_appendLines :
    ∀ ls : List String, (∀ l ∈ ls, '\n' ∉ l.data) →
      splitLines (appendLines ls).data = ls.map String.data ++ [[]] := by
  intro ls
  induction ls with
  | nil => intro _; rfl
  | cons l rest ih =>
    intro h
    have hl := h l (List.mem_cons_self _ _)
    have hrest := fun x hx => h x (List.mem_cons_of_mem l hx)
    show splitLines (l ++ "\n" ++ appendLines rest).data = _
    have hdata : (l ++ "\n" ++ appendLines rest).data
        = l.data ++ '\n' :: (appendLines rest).data := by
      rw [strData_append, strData_append]
      simp
    rw [hdata, splitLines_append_newline l.data _ hl, ih hrest]
    rfl

/-- The lines of the generated shebang script text: the first evaluated
line, then `L + 1` blank lines, then the remaining evaluated lines, then the
empty section after the final newline. -/
theorem splitLines_script (L : Nat) (l0 : String) (rest : List String)
    (h0 : '\n' ∉ l0.data) (hrest : ∀ l ∈ rest, '\n' ∉ l.data) :
    splitLines (shebangScriptText L (l0 :: rest)).data
      = l0.data :: (List.replicate (L + 1) [] ++ (rest.map String.data ++ [[]])) := by
  have hdata : (shebangScriptText L (l0 :: rest)).data
      = l0.data ++ '\n' :: (List.replicate (L + 1) '\n' ++ (appendLines rest).data) := by
    show (l0 ++ "\n" ++ newlines (L + 1) ++ appendLines rest).data = _
    rw [strData_append, strData_append, strData_append, newlines_data]
    simp
  rw [hdata, splitLines_append_newline l0.data _ h0, splitLines_newlines_prefix,
    splitLines_appendLines rest hrest]

/-- Claim C7, refuted at a concrete evaluation: when an evaluated body line
contains an embedded newline (here the second body line evaluates to
`"a\nb"`, e.g. from an interpolated variable holding a newline), the later
body lines are displaced — body line `"c"` should sit at absolute line 4 of
the generated script but line 4 is `"b"`. -/
theorem c7_counterexample :
    lineAt (shebangScriptText 0 ["#!s", "a\nb", "c"]) 4 = some "b" ∧ "b" ≠ "c" :=
  ⟨rfl, by decide⟩

/-- Claim C7 as amended: provided no evaluated line embeds a newline, body
line `j + 1` of a shebang recipe (0-based; the shebang itself is line 0)
appears in the generated script text at the absolute 1-based line number
`L + 3 + j` — the same line it occupies in the source justfile, whose header
sits on 0-based line `L`; and a successful non-dry-run of a shebang recipe
writes exactly that text to a temp script named after the recipe. -/
theorem c7_shebang_script_layout :
    (∀ (L j : Nat) (l0 : String) (rest : List String),
      '\n' ∉ l0.data → (∀ l ∈ rest, '\n' ∉ l.data) → j < rest.length →
      lineAt (shebangScriptText L (l0 :: rest)) (L + 3 + j) = rest.get? j) ∧
    (∀ (env : RunEnv) (config : Config) (scope : List (String × String))
       (recipe : Recipe) (fuel : Nat) (args : List String)
       (am : List (String × String)) (st1 : EvalState) (l0 : String)
       (ls : List String) (st2 : EvalState),
      recipe.shebang = true → config.dryRun = false →
      bindParameters (recipeEvalContext env config scope) fuel recipe.parameters args []
          (recipeInitState config recipe) = (.ok am, st1) →
      evaluateLines (recipeEvalContext env config scope) fuel am recipe.lines st1
          = (.ok (l0 :: ls), st2) →
      Effect.tmpScriptWritten recipe.name (shebangScriptText recipe.lineNumber (l0 :: ls))
        ∈ ((recipeRun env config scope recipe fuel args).2).log) := by
  constructor
  · intro L j l0 rest h0 hrest hj
    unfold lineAt
    rw [splitLines_script L l0 rest h0 hrest]
    rw [show L + 3 + j - 1 = (L + 1 + j) + 1 from by omega, List.get?_cons_succ]
    rw [List.get?_append_right (by simp)]
    rw [List.length_replicate, show L + 1 + j - (L + 1) = j from by omega]
    rw [List.get?_append (by simpa using hj), List.get?_map]
    cases hg : rest.get? j <;> simp [string_mk_data]
  · intro env config scope recipe fuel args am st1 l0 ls st2 hsb hdc hB hL
    simp only [recipeRun, hB, hsb, if_true, hL, hdc, Bool.false_eq_true, if_false,
      Bool.false_or]
    split
    · simp
    · split
      · split
        · simp
        · simp
      · simp
      · simp
      · simp

/-- Witness for the amended C7: for a header on 0-based line 0, body line 1
("echo") lands on generated line 3, and a concrete successful shebang run
logs the temp-script write. -/
theorem c7_witness :
    lineAt (shebangScriptText 0 ["#!s", "echo"]) 3 = some "echo" ∧
    Effect.tmpScriptWritten "r" (shebangScriptText 0 ["#!s", "echo"])
      ∈ ((recipeRun runFixtureEnv wetConfig [] shebangRecipe 5 []).2).log := by
  constructor
  · have h := c7_shebang_script_layout.1 0 0 "#!s" ["echo"] (by decide) (by decide)
      (by decide)
    simpa using h
  · exact c7_shebang_script_layout.2 runFixtureEnv wetConfig [] shebangRecipe 5 [] []
      (recipeInitState wetConfig shebangRecipe) "#!s" ["echo"]
      (recipeInitState wetConfig shebangRecipe) rfl rfl rfl rfl

/-! ## Claim C8: assignment caching -/

/-- Claim C8: once an assignment name is in the `evaluated` cache, evaluating
the `Variable` returns the cached string with the state — including the
effect log, hence any backtick spawns — unchanged; a successful
`evaluate_assignment` leaves the name cached; and calling
`evaluate_assignment` again on the same name is a no-op returning the very
same state, so an assignment's expression and the backticks inside it run at
most once per invocation. -/
theorem c8_assignment_caching (ctx : EvalContext) (fuel : Nat) (name : String)
    (st : EvalState) (v : EvalValue) (st' : EvalState)
    (h : evalCall ctx (fuel + 1) (.assignment name) st = (.ok v, st')) :
    ((lookupAL name st.evaluated).isSome → st' = st) ∧
    (lookupAL name st'.evaluated).isSome ∧
    (∀ g : Nat, evalCall ctx (g + 1) (.assignment name) st' = (.ok .unit, st')) ∧
    (∀ w, lookupAL name st.evaluated = some w →
      ∀ (g : Nat) (args : List (String × String)),
        evalCall ctx (g + 1) (.expr args (.variable name)) st = (.ok (.str w), st)) := by
  have hsome := evalCall_assignment_isSome ctx fuel name st v st' h
  refine ⟨?_, hsome, ?_, ?_⟩
  · intro hS
    obtain ⟨w, hw⟩ := Option.isSome_iff_exists.mp hS
    simp only [evalCall, hw, Prod.mk.injEq] at h
    exact h.2.symm
  · intro g
    obtain ⟨w, hw⟩ := Option.isSome_iff_exists.mp hsome
    simp [evalCall, hw]
  · intro w hw g args
    simp [evalCall, hw]

def cachingContext : EvalContext :=
  { fixtureContext with assignments := [("a", .backtick "cmd")] }

def cachedState : EvalState :=
  { evaluated := [("a", "out")],
    log := [.assignmentExpressionEvaluated "a", .backtickRun "cmd"] }

/-- Witness for C8: evaluating the assignment `a` (a backtick) runs the
backtick once and caches `"out"`; the second call is a no-op returning the
identical state — same cache, same spawn log. -/
theorem c8_witness :
    (lookupAL "a" cachedState.evaluated).isSome = true ∧
    evalCall cachingContext 1 (.assignment "a") cachedState = (.ok .unit, cachedState) := by
  have h := c8_assignment_caching cachingContext 1 "a" emptyState .unit cachedState rfl
  exact ⟨h.2.1, h.2.2.1 0⟩

/-! ## Claim C3: top-level assignment evaluation and overrides -/

/-- Claim C3: a successful top-level evaluation produces a map with an entry
for every assignment name, and for every assignment name that has an
override the resulting value is exactly the override string and the
assignment's expression is never evaluated (the evaluator's
expression-evaluation branch — where any backtick or function call inside the
expression would run — is never entered for that name, as witnessed by the
absence of its marker from the effect log). -/
theorem c3_evaluate_assignments (assignments : List (String × Expression))
    (overrides : List (String × String)) (quiet : Bool) (shell : String) (dryRun : Bool)
    (functions : String → List String → Except RuntimeError String)
    (backtickOutput : String → Except OutputError String) (fuel : Nat)
    (result : List (String × String)) (st' : EvalState)
    (h : evaluateAssignments assignments overrides quiet shell dryRun functions
      backtickOutput fuel = (.ok result, st')) :
    (∀ name ∈ assignments.map Prod.fst, (lookupAL name result).isSome) ∧
    (∀ name w, lookupAL name overrides = some w → name ∈ assignments.map Prod.fst →
      lookupAL name result = some w ∧
      Effect.assignmentExpressionEvaluated name ∉ st'.log) := by
  cases hL : evalAssignmentsLoop
      (topLevelContext assignments overrides quiet shell dryRun functions backtickOutput)
      fuel (assignments.map Prod.fst) { evaluated := [], log := [] } with
  | mk res stF =>
    cases res with
    | error e => simp [evaluateAssignments, hL] at h
    | ok u =>
      simp only [evaluateAssignments, hL, Prod.mk.injEq, Except.ok.injEq] at h
      obtain ⟨hres, hst⟩ := h
      subst hst
      have hcomp := evalAssignmentsLoop_complete
        (topLevelContext assignments overrides quiet shell dryRun functions backtickOutput)
        fuel (assignments.map Prod.fst) { evaluated := [], log := [] } u stF hL
      have hstep := evalAssignmentsLoop_stepOK
        (topLevelContext assignments overrides quiet shell dryRun functions backtickOutput)
        fuel (assignments.map Prod.fst) { evaluated := [], log := [] }
      rw [hL] at hstep
      constructor
      · intro name hmem
        rw [← hres]
        exact hcomp name hmem
      · intro name w hov hmem
        have hsome := hcomp name hmem
        have hinv := hstep.override_inv (by intro m w' u' _ hu; simp [lookupAL] at hu)
        obtain ⟨u', hu'⟩ := Option.isSome_iff_exists.mp hsome
        have hval : u' = w := hinv name w u' hov hu'
        constructor
        · rw [← hres, hu', hval]
        · obtain ⟨tail, htail, _, hmark⟩ := hstep.log_extend
          have hm := hmark name (by show (lookupAL name overrides).isSome; rw [hov]; rfl)
          intro hmem2
          rw [htail] at hmem2
          simp only [List.nil_append] at hmem2
          exact hm hmem2

/-- Witness for C3: for assignments `a := "1"` and `b := `cmd`` with the
override `b := "OV"`, evaluation yields `a` and `b` with `b` set verbatim to
`"OV"`, and `b`'s expression (the backtick) is never evaluated: the log holds
only `a`'s evaluation marker. -/
theorem c3_witness :
    (lookupAL "a" [("a", "1"), ("b", "OV")]).isSome = true ∧
    lookupAL "b" [("a", "1"), ("b", "OV")] = some "OV" ∧
    Effect.assignmentExpressionEvaluated "b"
      ∉ [Effect.assignmentExpressionEvaluated "a"] := by
  have h := c3_evaluate_assignments
    [("a", Expression.string "1"), ("b", Expression.backtick "cmd")] [("b", "OV")]
    false "sh" false (fun _ _ => .error (.internal "no fn")) (fun _ => .ok "out") 10
    [("a", "1"), ("b", "OV")]
    { evaluated := [("a", "1"), ("b", "OV")],
      log := [.assignmentExpressionEvaluated "a"] } rfl
  exact ⟨h.1 "a" (by simp), (h.2 "b" "OV" rfl (by simp)).1, (h.2 "b" "OV" rfl (by simp)).2⟩

/-! ## Claim C2: dry-run spawns nothing -/

/-- Claim C2: under the dry-run flag, (1) a backtick evaluates to its literal
source text enclosed in backticks with the state untouched; (2) running any
recipe records no subprocess spawn (no backtick, no per-line shell, no
shebang interpreter) and no temp-script write in the effect log, whether the
run succeeds or fails; (3) a shebang recipe returns `Ok` directly after
printing its evaluated lines, before the temp script would be created; and
(4) in line-by-line execution a non-empty logical command is printed to the
diagnostic stream and the loop continues to the next command without
spawning anything. -/
theorem c2_dry_run_inert :
    (∀ (ctx : EvalContext) (fuel : Nat) (args : List (String × String)) (raw : String)
       (st : EvalState), ctx.dryRun = true →
      evalCall ctx (fuel + 1) (.expr args (.backtick raw)) st
        = (.ok (.str ("`" ++ raw ++ "`")), st)) ∧
    (∀ (env : RunEnv) (config : Config) (scope : List (String × String))
       (recipe : Recipe) (fuel : Nat) (args : List String), config.dryRun = true →
      ∀ e ∈ ((recipeRun env config scope recipe fuel args).2).log,
        e.spawnsProcess = false ∧ e.writesScript = false) ∧
    (∀ (env : RunEnv) (config : Config) (scope : List (String × String))
       (recipe : Recipe) (fuel : Nat) (args : List String)
       (am : List (String × String)) (st1 : EvalState) (ls : List String)
       (st2 : EvalState),
      config.dryRun = true → recipe.shebang = true →
      bindParameters (recipeEvalContext env config scope) fuel recipe.parameters args []
          (recipeInitState config recipe) = (.ok am, st1) →
      evaluateLines (recipeEvalContext env config scope) fuel am recipe.lines st1
          = (.ok ls, st2) →
      recipeRun env config scope recipe fuel args
        = (.ok (), { st2 with log := st2.log ++ ls.map .printErr })) ∧
    (∀ (ctx : EvalContext) (env : RunEnv) (config : Config) (rname : String)
       (rquiet : Bool) (args : List (String × String)) (fuel : Nat)
       (line : List Fragment) (rest0 rest : List (List Fragment)) (n n' : Nat)
       (st st' : EvalState) (cmd : String) (q : Bool) (c : String),
      config.dryRun = true →
      collectCommand ctx fuel args "" (line :: rest0) n st = (.ok (cmd, rest, n'), st') →
      stripQuietFlag cmd = (q, c) → c ≠ "" →
      runLines ctx env config rname rquiet args (fuel + 1) (line :: rest0) n st
        = runLines ctx env config rname rquiet args fuel rest n'
            { st' with log := st'.log ++ [.printErr c] }) := by
  refine ⟨?_, ?_, ?_, ?_⟩
  · intro ctx fuel args raw st hdry
    simp [evalCall, hdry]
  · intro env config scope recipe fuel args hdry e he
    have h := recipeRun_stepOK env config scope recipe fuel args
    obtain ⟨tail, htail, hdryT, _⟩ := h.log_extend
    rw [htail] at he
    rcases List.mem_append.mp he with hin | hin
    · unfold recipeInitState at hin
      by_cases hb : config.verbosity.isLoquacious = true
      · simp only [hb, if_true, List.mem_singleton] at hin
        subst hin
        exact ⟨rfl, rfl⟩
      · simp [hb] at hin
    · exact hdryT (by show (recipeEvalContext env config scope).dryRun = true; exact hdry)
        e hin
  · intro env config scope recipe fuel args am st1 ls st2 hdc hsb hB hL
    simp [recipeRun, hB, hsb, hL, hdc]
  · intro ctx env config rname rquiet args fuel line rest0 rest n n' st st' cmd q c
      hdc hcc hsq hne
    simp [runLines, hcc, hsq, hne, hdc]

/-- Witness for C2 at concrete fixtures: the dry backtick literal, the
spawn-free log entry of a concrete dry run, and the dry-run print-and-skip
step of the line loop. -/
theorem c2_witness :
    evalCall dryContext 1 (.expr [] (.backtick "w")) emptyState
      = (.ok (.str ("`" ++ "w" ++ "`")), emptyState) ∧
    (Effect.printErr "echo hi").spawnsProcess = false ∧
    (Effect.printErr "echo hi").writesScript = false ∧
    runLines fixtureContext runFixtureEnv dryConfig "r" false [] 1
        [[Fragment.text "echo hi"]] 1 emptyState
      = runLines fixtureContext runFixtureEnv dryConfig "r" false [] 0 [] 2
          { emptyState with log := emptyState.log ++ [.printErr "echo hi"] } := by
  have h2 := c2_dry_run_inert.2.1 runFixtureEnv dryConfig [] lineRecipe 10 [] rfl
    (.printErr "echo hi")
    (by rw [show ((recipeRun runFixtureEnv dryConfig [] lineRecipe 10 []).2).log
          = [Effect.printErr "echo hi"] from rfl]
        exact List.mem_singleton.mpr rfl)
  refine ⟨c2_dry_run_inert.1 dryContext 0 [] "w" emptyState rfl, h2.1, h2.2, ?_⟩
  exact c2_dry_run_inert.2.2.2 fixtureContext runFixtureEnv dryConfig "r" false [] 0
    [Fragment.text "echo hi"] [] [] 1 2 emptyState emptyState "echo hi" false "echo hi"
    rfl rfl rfl (by decide)

end JustSpec
